import Mathlib

/-!
Verification of the gorelay cursor-pagination library.

This file embeds the cursor codecs (`cursor/keyset.go`, `cursor/offset.go`) and
the SQL keyset finder adapter (`gormrelay/keyset.go`) of the molon/gorelay
repository, and proves or refutes the frozen claims about them.

Modelling conventions:
* Go strings are byte lists (`GoStr := List Nat`); `gs` builds one from a
  Lean string literal (all inputs used here are ASCII).
* Go `int` is `Int` (64-bit overflow is not modelled; no claim depends on it).
* JSON values occurring in keyset cursors are modelled by `JVal`
  (integers and strings; jsoniter would decode numbers as floats, but the
  claims only concern map structure, not numeric width).
* Go maps (`map[string]any`) are modelled as key-sorted association lists
  without duplicate keys; jsoniter's `SortMapKeys: true` marshalling is
  realised by keeping maps in this canonical sorted form.
* `context.Context` and gorm connection plumbing carry no logic relevant
  to the claims and are not modelled.
-/

namespace Gorelay

/-- Go string, as its byte sequence. -/
abbrev GoStr := List Nat

/-- Build a `GoStr` from an ASCII Lean string literal. -/
def gs (s : String) : GoStr := s.toList.map Char.toNat

/-- pagination.OrderBy: one ordering field with its direction. -/
structure OrderBy where
  field : GoStr
  desc : Bool
deriving DecidableEq

/-- A JSON scalar value as it occurs in a keyset cursor. -/
inductive JVal where
  | jint : Int → JVal
  | jstr : GoStr → JVal
deriving DecidableEq

/-- A decoded keyset cursor: Go `map[string]any`, kept in key-sorted
canonical form. -/
abbrev JsonMap := List (GoStr × JVal)

/-- Byte-lexicographic comparison of Go strings (the order `sort.Strings`
and jsoniter's `SortMapKeys` use). -/
def cmpBytes : GoStr → GoStr → Ordering
  | [], [] => .eq
  | [], _ :: _ => .lt
  | _ :: _, [] => .gt
  | a :: as, b :: bs =>
    match compare a b with
    | .eq => cmpBytes as bs
    | o => o

/-- Insert a key/value pair into a sorted association list, replacing an
existing binding of the same key (Go map assignment: last write wins). -/
def insertRep : JsonMap → GoStr → JVal → JsonMap
  | [], k, v => [(k, v)]
  | (k', v') :: rest, k, v =>
    match cmpBytes k k' with
    | .lt => (k, v) :: (k', v') :: rest
    | .eq => (k, v) :: rest
    | .gt => (k', v') :: insertRep rest k v

/-- Turn a list of parsed JSON object members into the canonical map
(Go `map[string]any` semantics: unordered, duplicate keys overwrite). -/
def normalizeMap (pairs : List (GoStr × JVal)) : JsonMap :=
  pairs.foldl (fun acc p => insertRep acc p.1 p.2) []

/-- The map is in canonical form: keys strictly ascending. -/
def canonMap (m : JsonMap) : Prop :=
  m.Pairwise fun p q => cmpBytes p.1 q.1 = .lt

instance : DecidablePred canonMap := fun m =>
  inferInstanceAs (Decidable (m.Pairwise _))

/-! ### Decimal digits (shared by `strconv` and the JSON number syntax) -/

/-- Decimal digit bytes of a natural number, most significant first.
Fuel-driven so it reduces in the kernel; `natDigs` supplies enough fuel. -/
def natDigsF : Nat → Nat → List Nat
  | 0, _ => []
  | fuel + 1, n => if n < 10 then [n + 48] else natDigsF fuel (n / 10) ++ [n % 10 + 48]

/-- Decimal digit bytes of a natural number, most significant first. -/
def natDigs (n : Nat) : List Nat := natDigsF (n + 1) n

/-- Is the byte an ASCII decimal digit? -/
def isDigitB (b : Nat) : Bool := 48 ≤ b && b ≤ 57

/-- Value of a digit-byte string read left to right (how both `strconv.Atoi`
and a JSON number parser accumulate the value). -/
def digitsToNat (bs : List Nat) : Nat := bs.foldl (fun acc b => acc * 10 + (b - 48)) 0

/-- `strconv.Itoa` on a (mathematical) integer, as bytes. -/
def goItoa (n : Int) : GoStr :=
  if n < 0 then 45 :: natDigs n.natAbs else natDigs n.toNat

/-- Digits-only body shared by the `strconv.Atoi` branches: nonempty,
all decimal digits. -/
def atoiCore (bs : List Nat) (pos : Bool) : Except String Int :=
  if bs ≠ [] ∧ bs.all isDigitB then
    .ok (if pos then (digitsToNat bs : Int) else -(digitsToNat bs : Int))
  else .error "parse offset cursor"

/-- `strconv.Atoi`: optional sign, then decimal digits. (Go's 64-bit range
check is not modelled; no claim depends on overflow.) -/
def goAtoi (bs : GoStr) : Except String Int :=
  match bs with
  | [] => .error "parse offset cursor"
  | 43 :: rest => atoiCore rest true
  | 45 :: rest => atoiCore rest false
  | _ => atoiCore bs true

/-! ### JSON (de)serialisation for flat keyset maps

jsoniter is configured with `SortMapKeys: true` and a dummy `TagKey`, so a
record marshals to a flat JSON object keyed by struct field name.  The
embedding implements the fragment of JSON those cursors inhabit: one-level
objects whose members are integers or escape-free strings, no whitespace.
-/

/-- Serialised bytes of a JSON scalar. -/
def valBytes : JVal → List Nat
  | .jint n => goItoa n
  | .jstr s => 34 :: s ++ [34]

/-- Serialised bytes of one object member: `"key":value`. -/
def pairBytes (p : GoStr × JVal) : List Nat :=
  34 :: p.1 ++ 34 :: 58 :: valBytes p.2

/-- Serialise a map to JSON object bytes, members in list order (the
canonical sorted order for maps kept in canonical form, matching
`SortMapKeys`). -/
def emitMap (m : JsonMap) : GoStr :=
  123 :: [44].intercalate (m.map pairBytes) ++ [125]

/-- Parse a JSON string token: a quote, body, closing quote. -/
def parseQuoted (bs : List Nat) : Except String GoStr :=
  match bs with
  | 34 :: rest =>
    if rest.getLast? = some 34 then .ok rest.dropLast else .error "unmarshal cursor"
  | _ => .error "unmarshal cursor"

/-- Parse a JSON scalar: a string token or an integer (optional minus). -/
def parseJVal (bs : List Nat) : Except String JVal :=
  match bs with
  | 34 :: _ => (parseQuoted bs).map .jstr
  | 45 :: rest =>
    if rest ≠ [] ∧ rest.all isDigitB then .ok (.jint (-(digitsToNat rest : Int)))
    else .error "unmarshal cursor"
  | _ =>
    if bs ≠ [] ∧ bs.all isDigitB then .ok (.jint (digitsToNat bs : Int))
    else .error "unmarshal cursor"

/-- Parse one object member `"key":value`. -/
def parsePair (bs : List Nat) : Except String (GoStr × JVal) :=
  match bs.splitOn 58 with
  | [kpart, vpart] => do
    let k ← parseQuoted kpart
    let v ← parseJVal vpart
    .ok (k, v)
  | _ => .error "unmarshal cursor"

/-- Parse JSON object bytes into a Go map (canonical form; duplicate
members overwrite, as in a Go map). -/
def parseMap (bs : GoStr) : Except String JsonMap :=
  match bs with
  | 123 :: rest =>
    if rest.getLast? = some 125 then
      let body := rest.dropLast
      if body = [] then .ok []
      else do
        let pairs ← (body.splitOn 44).mapM parsePair
        .ok (normalizeMap pairs)
    else .error "unmarshal cursor"
  | _ => .error "unmarshal cursor"

deriving instance DecidableEq for Except

/-! ### Standard base64 (`encoding/base64.StdEncoding`)

`DecodeString` is modelled strictly on 4-byte quanta with `=` padding only
in the final quantum; Go's tolerance of embedded newlines is not modelled
(no claim involves newlines). -/

/-- The standard base64 alphabet, as ASCII bytes. -/
def b64Alphabet : List Nat :=
  (gs "ABCDEFGHIJKLMNOPQRSTUVWXYZabcdefghijklmnopqrstuvwxyz0123456789+/")

/-- Encode one 6-bit group as an alphabet byte. -/
def b64Chr (v : Nat) : Nat := b64Alphabet.getD v 0

/-- Decode one alphabet byte back to its 6-bit group. -/
def b64Val (c : Nat) : Option Nat :=
  if c ∈ b64Alphabet then some (b64Alphabet.indexOf c) else none

/-- base64-encode a byte string (3 bytes to 4 chars, `=`-padded tail). -/
def encB64 : List Nat → List Nat
  | b1 :: b2 :: b3 :: rest =>
    b64Chr (b1 / 4) :: b64Chr (b1 % 4 * 16 + b2 / 16) ::
      b64Chr (b2 % 16 * 4 + b3 / 64) :: b64Chr (b3 % 64) :: encB64 rest
  | [b1, b2] =>
    [b64Chr (b1 / 4), b64Chr (b1 % 4 * 16 + b2 / 16), b64Chr (b2 % 16 * 4), 61]
  | [b1] => [b64Chr (b1 / 4), b64Chr (b1 % 4 * 16), 61, 61]
  | [] => []

/-- base64-decode; `none` on any malformed input (wrong length, byte outside
the alphabet, misplaced padding). -/
def decB64 : List Nat → Option (List Nat)
  | [] => some []
  | c1 :: c2 :: c3 :: c4 :: rest =>
    match b64Val c1, b64Val c2 with
    | some v1, some v2 =>
      if c3 = 61 then
        if c4 = 61 ∧ rest = [] then some [v1 * 4 + v2 / 16] else none
      else
        match b64Val c3 with
        | some v3 =>
          if c4 = 61 then
            if rest = [] then some [v1 * 4 + v2 / 16, v2 % 16 * 16 + v3 / 4] else none
          else
            match b64Val c4 with
            | some v4 =>
              (decB64 rest).map fun bs =>
                (v1 * 4 + v2 / 16) :: (v2 % 16 * 16 + v3 / 4) :: (v3 % 4 * 64 + v4) :: bs
            | none => none
        | none => none
    | _, _ => none
  | _ => none

/-! ### Offset cursor codec (`cursor/offset.go`) -/

/-- `offsetParserImpl.Encode`: base64 of the decimal representation. -/
def offsetParserEncode (offset : Int) : GoStr := encB64 (goItoa offset)

/-- `offsetParserImpl.Decode`: base64-decode, then `strconv.Atoi`. -/
def offsetParserDecode (cursor : GoStr) : Except String Int :=
  match decB64 cursor with
  | none => .error "decode offset cursor"
  | some decoded => goAtoi decoded

/-- `parseOffsetCursors`: decode the supplied cursors and validate
non-negativity and `after < before`. -/
def parseOffsetCursors (after? before? : Option GoStr) :
    Except String (Option Int × Option Int) := do
  let after ← match after? with
    | none => pure none
    | some c => (offsetParserDecode c).map some
  let before ← match before? with
    | none => pure none
    | some c => (offsetParserDecode c).map some
  if (match after with
      | some a => decide (a < 0)
      | none => false) then .error "after < 0"
  else if (match before with
      | some b => decide (b < 0)
      | none => false) then .error "before < 0"
  else if (match after, before with
           | some a, some b => decide (b ≤ a)
           | _, _ => false) then .error "after >= before"
  else .ok (after, before)

/-! ### Keyset cursor codec (`cursor/keyset.go`) -/

/-- `lo.PickByKeys`: restrict a map to the listed keys.  Keys absent from
the map are silently skipped — `PickByKeys` never reports them. -/
def pickByKeys (m : JsonMap) (keys : List GoStr) : JsonMap :=
  m.filter fun p => keys.contains p.1

/-- `EncodeKeysetCursor`: marshal the node, read it back as a field-keyed
map, restrict to the key fields, and marshal the restriction.  The node is
given directly as its field-name-keyed serialised map (the result of the
first marshal/unmarshal round), so both marshalling steps are the canonical
`emitMap`; they cannot fail on map-representable data, hence `.ok`. -/
def EncodeKeysetCursor (node : JsonMap) (keys : List GoStr) : Except String GoStr :=
  .ok (emitMap (pickByKeys node keys))

/-- `DecodeKeysetCursor`: parse the cursor, require exactly as many entries
as key fields and every key field present. -/
def DecodeKeysetCursor (cursor : GoStr) (keys : List GoStr) : Except String JsonMap := do
  let m ← parseMap cursor
  if m.length ≠ keys.length then .error "cursor length != keys length"
  else if keys.any fun k => (m.lookup k).isNone then .error "key not found in cursor"
  else .ok m

/-- `decodeKeysetCursors`: reject identical after/before cursor strings,
then decode each supplied cursor. -/
def decodeKeysetCursors (after? before? : Option GoStr) (keys : List GoStr) :
    Except String (Option JsonMap × Option JsonMap) := do
  if (match after?, before? with
      | some a, some b => a == b
      | _, _ => false) then .error "after == before"
  else
    let afterKeyset ← match after? with
      | none => pure none
      | some c => (DecodeKeysetCursor c keys).map some
    let beforeKeyset ← match before? with
      | none => pure none
      | some c => (DecodeKeysetCursor c keys).map some
    .ok (afterKeyset, beforeKeyset)

/-! ### The adapters (`cursor/keyset.go`, `cursor/offset.go`)

The `pagination` package types they use (`ApplyCursorsRequest`,
`ApplyCursorsResponse`, `Edge`, `LazyEdge`) are reconstructed from their
uses in `cursor/` and from spec §3/§4.1 (the package itself is not among
the given sources).  The `Counter` capability, probed by type assertion in
Go, is an explicit optional count result; a present counter whose `Count`
fails is `some (.error e)`. -/

/-- pagination.ApplyCursorsRequest. -/
structure ACRequest where
  after : Option GoStr
  before : Option GoStr
  limit : Int
  orderBys : List OrderBy
  fromLast : Bool

/-- pagination.Edge: node plus eagerly-encoded cursor. -/
structure Edge (T : Type) where
  node : T
  cursor : GoStr
deriving DecidableEq

/-- pagination.LazyEdge: node plus the deferred cursor computation's value
(laziness is a timing matter with no observable effect in a pure model). -/
structure LazyEdge (T : Type) where
  node : T
  cursor : Except String GoStr
deriving DecidableEq

/-- pagination.ApplyCursorsResponse, parametrised by the edge type. -/
structure ACResponse (E : Type) where
  edges : List E
  totalCount : Int
  hasAfterOrPrevious : Bool
  hasBeforeOrNext : Bool
deriving DecidableEq

/-- cursor.KeysetFinder: `Find(ctx, after, before, orderBys, limit, fromLast)`. -/
def KeysetFinder (T : Type) :=
  Option JsonMap → Option JsonMap → List OrderBy → Int → Bool → Except String (List T)

/-- cursor.OffsetFinder: `Find(ctx, skip, limit)`. -/
def OffsetFinder (T : Type) := Int → Int → Except String (List T)

/-- An optional `Counter` capability: `Count(ctx)`'s result when present. -/
def CounterCap := Option (Except String Int)

/-- `cursor.NewKeysetAdapter`'s apply-cursors function.  `toMap` is the
jsoniter serialisation of a node to its field-keyed map, used by the
per-edge cursor encoder. -/
def NewKeysetAdapter {T : Type} (toMap : T → JsonMap) (finder : KeysetFinder T)
    (counter : CounterCap) (req : ACRequest) :
    Except String (ACResponse (LazyEdge T)) := do
  let keys := req.orderBys.map (·.field)
  let (after, before) ← decodeKeysetCursors req.after req.before keys
  let totalCount ← match counter with
    | none => pure 0
    | some c => c
  let edges ←
    if req.limit ≤ 0 ∨ (counter.isSome ∧ totalCount ≤ 0) then
      pure ([] : List (LazyEdge T))
    else do
      let nodes ← finder after before req.orderBys req.limit req.fromLast
      pure (nodes.map fun node => ⟨node, EncodeKeysetCursor (toMap node) keys⟩)
  .ok { edges := edges
        totalCount := totalCount
        hasAfterOrPrevious := after.isSome
        hasBeforeOrNext := before.isSome }

/-- The limit/skip computation block of `cursor.NewOffsetAdapter`
(offset.go lines 48–65).  Returns `(limit, skip)`. -/
def offsetLimitSkip (limit0 : Int) (after before : Option Int) : Int × Int :=
  let skip0 : Int :=
    match after, before with
    | some a, _ => a + 1
    | none, some b => b - limit0
    | none, none => 0
  let skip := if skip0 < 0 then 0 else skip0
  let limit :=
    match before with
    | some b =>
      let rangeLen := if b - skip < 0 then 0 else b - skip
      if limit0 > rangeLen then rangeLen else limit0
    | none => limit0
  (limit, skip)

/-- `cursor.NewOffsetAdapter`'s apply-cursors function (with the default
offset parser; the optional `OffsetParser` override capability is not
modelled). -/
def NewOffsetAdapter {T : Type} (finder : OffsetFinder T) (counter : CounterCap)
    (req : ACRequest) : Except String (ACResponse (Edge T)) := do
  let (after, before) ← parseOffsetCursors req.after req.before
  let totalCount ← match counter with
    | none => pure 0
    | some c => c
  let p := offsetLimitSkip req.limit after before
  let limit := p.1
  let skip := p.2
  let edges ←
    if limit ≤ 0 ∨ (counter.isSome ∧ totalCount ≤ skip) then
      pure ([] : List (Edge T))
    else do
      let nodes ← finder skip limit
      pure (nodes.enum.map fun ni => ⟨ni.2, offsetParserEncode (skip + ni.1)⟩)
  .ok { edges := edges
        totalCount := totalCount
        hasAfterOrPrevious :=
          match counter, after with
          | some _, some a => decide (a < totalCount)
          | none, some _ => true
          | _, none => false
        hasBeforeOrNext :=
          match counter, before with
          | some _, some b => decide (b < totalCount)
          | none, some _ => true
          | _, none => false }

/-! ### The gorm keyset finder (`gormrelay/keyset.go`)

`createWhereExpr` builds a `clause.Or` of `clause.And`s of comparison
atoms; the embedding represents exactly that Or-of-Ands fragment of gorm's
expression language.  SQL column values are modelled as integers (`Row`
maps column names to `Int`; any linearly ordered column domain would do).
The source derives the column name with `lo.SnakeCase(orderBy.Field)` —
schema/column-name resolution is outside the spec's core (§1) — so the
field-to-column renaming is an arbitrary parameter `col` here. -/

/-- One SQL comparison atom: `clause.Gt`, `clause.Lt` or `clause.Eq`. -/
inductive WAtom where
  | gtA : GoStr → Int → WAtom
  | ltA : GoStr → Int → WAtom
  | eqA : GoStr → Int → WAtom
deriving DecidableEq

/-- A `clause.And` of atoms. -/
abbrev AndGroup := List WAtom

/-- A `clause.Or` of `clause.And`s — the shape `createWhereExpr` builds. -/
abbrev OrAnds := List AndGroup

/-- A keyset as the gorm layer consumes it: ordering-field name to the
(integer-modelled) column value. -/
abbrev KeysetI := List (GoStr × Int)

/-- A database row: column name to value, as an association list
(absent columns read as 0; every query only touches present columns). -/
abbrev Row := List (GoStr × Int)

/-- Value of a column in a row. -/
def rowVal (r : Row) (c : GoStr) : Int := (r.lookup c).getD 0

/-- Truth of one comparison atom on a row. -/
def evalAtom (r : Row) : WAtom → Bool
  | .gtA c v => decide (v < rowVal r c)
  | .ltA c v => decide (rowVal r c < v)
  | .eqA c v => decide (rowVal r c = v)

/-- Truth of a `clause.And` group on a row. -/
def evalAnd (r : Row) (g : AndGroup) : Bool := g.all (evalAtom r)

/-- Truth of the Or-of-Ands tree on a row. -/
def evalOr (r : Row) (t : OrAnds) : Bool := t.any (evalAnd r)

/-- The loop body of `createWhereExpr`: walk the order-by fields carrying
the accumulated equality prefix `eqs`; emit `eqs AND (strict inequality)`
per position, extending `eqs` except after the last field. -/
def createWhereExprGo (col : GoStr → GoStr) (keyset : KeysetI) (reverse : Bool) :
    List OrderBy → AndGroup → Except String OrAnds
  | [], _ => .ok []
  | ob :: rest, eqs =>
    match keyset.lookup ob.field with
    | none => .error "missing field in keyset"
    | some v =>
      let column := col ob.field
      let desc := if reverse then !ob.desc else ob.desc
      let expr := if desc then WAtom.ltA column v else WAtom.gtA column v
      let ands := eqs ++ [expr]
      let eqs2 := if rest.isEmpty then eqs else eqs ++ [WAtom.eqA column v]
      (createWhereExprGo col keyset reverse rest eqs2).map fun ors => ands :: ors

/-- `createWhereExpr(orderBys, keyset, reverse)`: the keyset boundary
predicate, as an Or-of-Ands tree. -/
def createWhereExpr (col : GoStr → GoStr) (orderBys : List OrderBy)
    (keyset : KeysetI) (reverse : Bool) : Except String OrAnds :=
  createWhereExprGo col keyset reverse orderBys []

/-- What `scopeKeyset` contributes to the query: WHERE trees, ORDER BY
columns `(column, desc)`, and the LIMIT. -/
structure KQuery where
  wheres : List OrAnds
  orderCols : List (GoStr × Bool)
  limit : Int
deriving DecidableEq

/-- `scopeKeyset(after, before, orderBys, limit, fromLast)`: boundary
predicates for the cursors (the before-predicate direction-reversed),
ORDER BY columns with `desc` flipped when `fromLast`, and the limit. -/
def scopeKeyset (col : GoStr → GoStr) (after before : Option KeysetI)
    (orderBys : List OrderBy) (limit : Int) (fromLast : Bool) :
    Except String KQuery := do
  let wheresA ← match after with
    | none => pure ([] : List OrAnds)
    | some ks => (createWhereExpr col orderBys ks false).map fun t => [t]
  let wheresB ← match before with
    | none => pure ([] : List OrAnds)
    | some ks => (createWhereExpr col orderBys ks true).map fun t => [t]
  let orderCols := orderBys.map fun ob =>
    (col ob.field, if fromLast then !ob.desc else ob.desc)
  .ok ⟨wheresA ++ wheresB, orderCols, limit⟩

/-- Multi-column ORDER BY comparator: `a` sorts no later than `b`. -/
def lexLe (cols : List (GoStr × Bool)) (a b : Row) : Bool :=
  match cols with
  | [] => true
  | (c, desc) :: rest =>
    let x := rowVal a c
    let y := rowVal b c
    if x = y then lexLe rest a b
    else if desc then decide (y < x) else decide (x < y)

/-- Semantics of executing a `KQuery` against a table of rows: filter by
the WHERE clauses, sort by the ORDER BY columns, apply the LIMIT (gorm
cancels the limit clause when it is negative). -/
def runQuery (store : List Row) (q : KQuery) : List Row :=
  let matched := store.filter fun r => q.wheres.all fun t => evalOr r t
  let sorted := List.insertionSort (fun a b => lexLe q.orderCols a b = true) matched
  if q.limit < 0 then sorted else sorted.take q.limit.toNat

/-- The `Find` function produced by `gormrelay.NewKeysetFinder`: short
circuit on `limit == 0`, run the scoped query, and reverse the slice in
memory when `fromLast`. -/
def keysetFinderFind (col : GoStr → GoStr) (store : List Row)
    (after before : Option KeysetI) (orderBys : List OrderBy)
    (limit : Int) (fromLast : Bool) : Except String (List Row) :=
  if limit = 0 then .ok []
  else do
    let q ← scopeKeyset col after before orderBys limit fromLast
    let nodes := runQuery store q
    .ok (if fromLast then nodes.reverse else nodes)

/-! ### Decimal digit lemmas -/

theorem natDigsF_foldl (fuel : Nat) : ∀ n : Nat, n ≤ fuel → ∀ acc : Nat,
    (natDigsF (fuel + 1) n).foldl (fun a b => a * 10 + (b - 48)) acc
      = acc * 10 ^ (natDigsF (fuel + 1) n).length + n := by
  induction fuel with
  | zero =>
    intro n hn acc
    interval_cases n
    simp [natDigsF]
  | succ fuel ih =>
    intro n hn acc
    by_cases h : n < 10
    · have hd : natDigsF (fuel + 1 + 1) n = [n + 48] := by simp [natDigsF, h]
      rw [hd]
      simp
    · have hd : natDigsF (fuel + 1 + 1) n
          = natDigsF (fuel + 1) (n / 10) ++ [n % 10 + 48] := by
        simp [natDigsF, h]
      have hrec : n / 10 ≤ fuel := by omega
      rw [hd, List.foldl_append, ih (n / 10) hrec acc]
      simp only [List.foldl_cons, List.foldl_nil, List.length_append,
        List.length_singleton]
      have hmod : n % 10 + 10 * (n / 10) = n := Nat.mod_add_div n 10
      rw [pow_succ]
      ring_nf
      omega

theorem natDigsF_digits (fuel : Nat) : ∀ n : Nat, n ≤ fuel →
    (natDigsF (fuel + 1) n).all isDigitB = true := by
  induction fuel with
  | zero =>
    intro n hn
    interval_cases n
    simp [natDigsF, isDigitB]
  | succ fuel ih =>
    intro n hn
    by_cases h : n < 10
    · have hd : natDigsF (fuel + 1 + 1) n = [n + 48] := by simp [natDigsF, h]
      rw [hd]
      simp [isDigitB]
      omega
    · have hd : natDigsF (fuel + 1 + 1) n
          = natDigsF (fuel + 1) (n / 10) ++ [n % 10 + 48] := by
        simp [natDigsF, h]
      rw [hd, List.all_append, ih (n / 10) (by omega)]
      simp [isDigitB]
      omega

theorem natDigs_foldl (n : Nat) : digitsToNat (natDigs n) = n := by
  have := natDigsF_foldl n n le_rfl 0
  simpa [digitsToNat, natDigs] using this

theorem natDigs_digits (n : Nat) : (natDigs n).all isDigitB = true :=
  natDigsF_digits n n le_rfl

theorem natDigs_ne_nil (n : Nat) : natDigs n ≠ [] := by
  unfold natDigs natDigsF
  by_cases h : n < 10 <;> simp [h]

theorem goAtoi_not_sign (d : Nat) (ds : List Nat) (h43 : d ≠ 43) (h45 : d ≠ 45) :
    goAtoi (d :: ds) = atoiCore (d :: ds) true := by
  unfold goAtoi
  split
  · simp_all
  · rename_i heq
    injection heq with h1 _
    exact (h43 h1).elim
  · rename_i heq
    injection heq with h1 _
    exact (h45 h1).elim
  · rfl

theorem goAtoi_natDigs (n : Nat) : goAtoi (natDigs n) = .ok (n : Int) := by
  obtain ⟨d, ds, hcons⟩ := List.exists_cons_of_ne_nil (natDigs_ne_nil n)
  have hall := natDigs_digits n
  have hd : isDigitB d = true := by
    rw [hcons] at hall
    simp [List.all_cons] at hall
    exact hall.1
  have hd48 : 48 ≤ d := by simp [isDigitB] at hd; omega
  rw [hcons, goAtoi_not_sign d ds (by omega) (by omega), ← hcons]
  unfold atoiCore
  rw [if_pos ⟨natDigs_ne_nil n, natDigs_digits n⟩]
  simp [natDigs_foldl n]

theorem goAtoi_goItoa (n : Int) (hn : 0 ≤ n) : goAtoi (goItoa n) = .ok n := by
  unfold goItoa
  rw [if_neg (by omega)]
  rw [goAtoi_natDigs]
  congr 1
  omega

/-! ### Base64 lemmas -/

theorem b64Val_b64Chr (v : Nat) (h : v < 64) : b64Val (b64Chr v) = some v := by
  have hall : ∀ x : Fin 64, b64Val (b64Chr x.val) = some x.val := by decide
  exact hall ⟨v, h⟩

theorem b64Chr_ne_61 (v : Nat) (h : v < 64) : b64Chr v ≠ 61 := by
  have hall : ∀ x : Fin 64, b64Chr x.val ≠ 61 := by decide
  exact hall ⟨v, h⟩

theorem decB64_encB64 : ∀ l : List Nat, (∀ b ∈ l, b < 256) →
    decB64 (encB64 l) = some l := by
  intro l
  induction l using encB64.induct with
  | case1 b1 b2 b3 rest ih =>
    intro hb
    have hb1 : b1 < 256 := hb b1 (by simp)
    have hb2 : b2 < 256 := hb b2 (by simp)
    have hb3 : b3 < 256 := hb b3 (by simp)
    have h1 := b64Val_b64Chr (b1 / 4) (by omega)
    have h2 := b64Val_b64Chr (b1 % 4 * 16 + b2 / 16) (by omega)
    have h3 := b64Val_b64Chr (b2 % 16 * 4 + b3 / 64) (by omega)
    have h4 := b64Val_b64Chr (b3 % 64) (by omega)
    have hne3 := b64Chr_ne_61 (b2 % 16 * 4 + b3 / 64) (by omega)
    have hne4 := b64Chr_ne_61 (b3 % 64) (by omega)
    have hrec := ih fun b hbm => hb b (by simp [hbm])
    simp only [encB64, decB64, h1, h2, h3, h4, if_neg hne3, if_neg hne4, hrec,
      Option.map_some']
    simp
    omega
  | case2 b1 b2 =>
    intro hb
    have hb1 : b1 < 256 := hb b1 (by simp)
    have hb2 : b2 < 256 := hb b2 (by simp)
    have h1 := b64Val_b64Chr (b1 / 4) (by omega)
    have h2 := b64Val_b64Chr (b1 % 4 * 16 + b2 / 16) (by omega)
    have h3 := b64Val_b64Chr (b2 % 16 * 4) (by omega)
    have hne3 := b64Chr_ne_61 (b2 % 16 * 4) (by omega)
    simp only [encB64, decB64, h1, h2, h3, if_neg hne3]
    simp
    omega
  | case3 b1 =>
    intro hb
    have hb1 : b1 < 256 := hb b1 (by simp)
    have h1 := b64Val_b64Chr (b1 / 4) (by omega)
    have h2 := b64Val_b64Chr (b1 % 4 * 16) (by omega)
    simp only [encB64, decB64, h1, h2]
    simp
    omega
  | case4 =>
    intro _
    rfl

/-- Every byte `strconv.Itoa` emits is a valid byte. -/
theorem goItoa_lt_256 (n : Int) : ∀ b ∈ goItoa n, b < 256 := by
  have hdig : ∀ m : Nat, ∀ b ∈ natDigs m, b < 256 := by
    intro m b hbm
    have := natDigs_digits m
    rw [List.all_eq_true] at this
    have := this b hbm
    simp [isDigitB] at this
    omega
  intro b hbm
  unfold goItoa at hbm
  split at hbm
  · rcases List.mem_cons.mp hbm with h | h
    · omega
    · exact hdig _ b h
  · exact hdig _ b hbm

/-- The default offset codec round-trips every integer (`Decode ∘ Encode`
on non-negative offsets; signs are handled by `Atoi` anyway). -/
theorem offsetParserDecode_encode (n : Int) (hn : 0 ≤ n) :
    offsetParserDecode (offsetParserEncode n) = .ok n := by
  unfold offsetParserEncode offsetParserDecode
  rw [decB64_encB64 _ (goItoa_lt_256 n)]
  exact goAtoi_goItoa n hn

/-! ### Byte-string comparison lemmas -/

theorem cmpBytes_eq_iff : ∀ a b : GoStr, cmpBytes a b = .eq ↔ a = b := by
  intro a
  induction a with
  | nil => intro b; cases b <;> simp [cmpBytes]
  | cons x as ih =>
    intro b
    cases b with
    | nil => simp [cmpBytes]
    | cons y bs =>
      simp only [cmpBytes]
      rcases h : compare x y with hc | hc | hc
      · simp only [List.cons.injEq]
        constructor
        · intro hcm
          exact absurd hcm (by simp)
        · rintro ⟨h1, _⟩
          rw [h1] at h
          rw [Nat.compare_eq_eq.2 rfl] at h
          exact absurd h (by simp)
      · have hxy : x = y := Nat.compare_eq_eq.1 h
        simp [ih bs, hxy]
      · simp only [List.cons.injEq]
        constructor
        · intro hcm
          exact absurd hcm (by simp)
        · rintro ⟨h1, _⟩
          rw [h1] at h
          rw [Nat.compare_eq_eq.2 rfl] at h
          exact absurd h (by simp)

theorem cmpBytes_swap : ∀ a b : GoStr, (cmpBytes a b).swap = cmpBytes b a := by
  intro a
  induction a with
  | nil => intro b; cases b <;> simp [cmpBytes, Ordering.swap]
  | cons x as ih =>
    intro b
    cases b with
    | nil => simp [cmpBytes, Ordering.swap]
    | cons y bs =>
      simp only [cmpBytes]
      rcases h : compare x y with hc | hc | hc
      · have hx : x < y := Nat.compare_eq_lt.1 h
        have hyx : compare y x = .gt := Nat.compare_eq_gt.2 hx
        simp [hyx, Ordering.swap]
      · have hx : x = y := Nat.compare_eq_eq.1 h
        have hyx : compare y x = .eq := Nat.compare_eq_eq.2 hx.symm
        simp [hyx, ih bs]
      · have hx : y < x := Nat.compare_eq_gt.1 h
        have hyx : compare y x = .lt := Nat.compare_eq_lt.2 hx
        simp [hyx, Ordering.swap]

theorem cmpBytes_gt_of_lt {a b : GoStr} (h : cmpBytes a b = .lt) :
    cmpBytes b a = .gt := by
  rw [← cmpBytes_swap a b, h]
  rfl

/-! ### Canonical-map lemmas -/

theorem insertRep_gt : ∀ (acc : JsonMap) (k : GoStr) (v : JVal),
    (∀ q ∈ acc, cmpBytes k q.1 = .gt) → insertRep acc k v = acc ++ [(k, v)] := by
  intro acc
  induction acc with
  | nil => intro k v _; rfl
  | cons q rest ih =>
    intro k v h
    have hq : cmpBytes k q.1 = .gt := h q (by simp)
    obtain ⟨k', v'⟩ := q
    simp only [insertRep, hq]
    rw [ih k v fun p hp => h p (by simp [hp])]
    simp

theorem foldl_insertRep_sorted : ∀ (m acc : JsonMap),
    (acc ++ m).Pairwise (fun p q => cmpBytes p.1 q.1 = .lt) →
    m.foldl (fun a p => insertRep a p.1 p.2) acc = acc ++ m := by
  intro m
  induction m with
  | nil => intro acc _; simp
  | cons p rest ih =>
    intro acc h
    have hgt : ∀ q ∈ acc, cmpBytes p.1 q.1 = .gt := by
      intro q hq
      have := (List.pairwise_append.1 h).2.2 q hq p (by simp)
      exact cmpBytes_gt_of_lt this
    simp only [List.foldl_cons]
    rw [insertRep_gt acc p.1 p.2 hgt]
    have h2 : ((acc ++ [(p.1, p.2)]) ++ rest).Pairwise
        (fun p q => cmpBytes p.1 q.1 = .lt) := by
      simpa using h
    rw [ih (acc ++ [(p.1, p.2)]) h2]
    simp

/-- Parsing normalisation is the identity on canonical maps. -/
theorem normalizeMap_canon (m : JsonMap) (h : canonMap m) : normalizeMap m = m := by
  have := foldl_insertRep_sorted m [] (by simpa [canonMap] using h)
  simpa [normalizeMap] using this

/-! ### Emit/parse round-trip -/

/-- Bytes that may appear in keys and string values of the valid cursor
domain: ASCII digits, letters and underscore (in particular no JSON
structural bytes and no escapes). -/
def safeByte (b : Nat) : Bool :=
  (48 ≤ b && b ≤ 57) || (65 ≤ b && b ≤ 90) || (97 ≤ b && b ≤ 122) || b == 95

/-- A scalar in the valid domain. -/
def validVal : JVal → Bool
  | .jint _ => true
  | .jstr s => s.all safeByte

/-- A map in the valid domain: safe keys and safe scalar values. -/
def validMap (m : JsonMap) : Bool :=
  m.all fun p => p.1.all safeByte && validVal p.2

theorem parseQuoted_quote (k : GoStr) : parseQuoted (34 :: k ++ [34]) = .ok k := by
  simp [parseQuoted]

theorem valBytes_structural (v : JVal) (hv : validVal v = true) :
    ∀ b ∈ valBytes v, b ≠ 58 ∧ b ≠ 44 := by
  intro b hb
  cases v with
  | jint n =>
    simp only [valBytes] at hb
    have hd : ∀ m : Nat, ∀ c ∈ natDigs m, c ≠ 58 ∧ c ≠ 44 := by
      intro m c hc
      have := natDigs_digits m
      rw [List.all_eq_true] at this
      have := this c hc
      simp [isDigitB] at this
      omega
    unfold goItoa at hb
    split at hb
    · rcases List.mem_cons.mp hb with h | h
      · omega
      · exact hd _ b h
    · exact hd _ b hb
  | jstr s =>
    simp only [valBytes] at hb
    simp only [validVal, List.all_eq_true] at hv
    rcases List.mem_cons.mp hb with h | h
    · omega
    · rcases List.mem_append.mp h with h2 | h2
      · have := hv b h2
        simp [safeByte] at this
        omega
      · simp at h2
        omega

theorem safe_ne (b x : Nat) (hb : safeByte b = true)
    (hx : x = 34 ∨ x = 44 ∨ x = 58 ∨ x = 123 ∨ x = 125) : b ≠ x := by
  simp [safeByte] at hb
  omega

theorem splitOn_pair (sep : Nat) (xs ys : List Nat)
    (hx : ∀ a ∈ xs, a ≠ sep) (hy : ∀ a ∈ ys, a ≠ sep) :
    (xs ++ sep :: ys).splitOn sep = [xs, ys] := by
  have h1 := List.splitOnP_first (fun a => a == sep) xs
    (fun x hxm => by simpa using hx x hxm) sep (by simp) ys
  have h2 : ys.splitOnP (fun a => a == sep) = [ys] :=
    List.splitOnP_eq_single _ _ (fun y hym => by simpa using hy y hym)
  simp only [List.splitOn] at *
  rw [h1, h2]

theorem parseJVal_valBytes (v : JVal) (hv : validVal v = true) :
    parseJVal (valBytes v) = .ok v := by
  cases v with
  | jstr s =>
    simp only [valBytes]
    have : parseJVal (34 :: s ++ [34]) = (parseQuoted (34 :: s ++ [34])).map .jstr := rfl
    rw [this, parseQuoted_quote]
    rfl
  | jint n =>
    simp only [valBytes]
    unfold goItoa
    by_cases h : n < 0
    · rw [if_pos h]
      have : parseJVal (45 :: natDigs n.natAbs)
          = if natDigs n.natAbs ≠ [] ∧ (natDigs n.natAbs).all isDigitB then
              .ok (.jint (-(digitsToNat (natDigs n.natAbs) : Int)))
            else .error "unmarshal cursor" := rfl
      rw [this, if_pos ⟨natDigs_ne_nil _, natDigs_digits _⟩, natDigs_foldl]
      simp only [Except.ok.injEq, JVal.jint.injEq]
      omega
    · rw [if_neg h]
      obtain ⟨d, ds, hcons⟩ := List.exists_cons_of_ne_nil (natDigs_ne_nil n.toNat)
      have hall := natDigs_digits n.toNat
      have hd : isDigitB d = true := by
        rw [hcons] at hall
        simp [List.all_cons] at hall
        exact hall.1
      have hd48 : 48 ≤ d ∧ d ≤ 57 := by simp [isDigitB] at hd; omega
      have hstep : parseJVal (d :: ds)
          = if (d :: ds) ≠ [] ∧ (d :: ds).all isDigitB then
              .ok (.jint (digitsToNat (d :: ds) : Int))
            else .error "unmarshal cursor" := by
        unfold parseJVal
        split
        · rename_i heq
          injection heq with h1 _
          omega
        · rename_i heq
          injection heq with h1 _
          omega
        · rfl
      rw [hcons, hstep, ← hcons, if_pos ⟨natDigs_ne_nil _, natDigs_digits _⟩,
        natDigs_foldl]
      simp only [Except.ok.injEq, JVal.jint.injEq]
      omega

theorem parsePair_pairBytes (p : GoStr × JVal)
    (hk : p.1.all safeByte = true) (hv : validVal p.2 = true) :
    parsePair (pairBytes p) = .ok p := by
  have hshape : pairBytes p = (34 :: p.1 ++ [34]) ++ 58 :: valBytes p.2 := by
    simp [pairBytes]
  have hx : ∀ a ∈ 34 :: p.1 ++ [34], a ≠ 58 := by
    intro a ha
    rcases List.mem_cons.mp ha with h | h
    · omega
    · rcases List.mem_append.mp h with h2 | h2
      · rw [List.all_eq_true] at hk
        exact safe_ne a 58 (hk a h2) (by omega)
      · simp at h2
        omega
  have hsplit : (pairBytes p).splitOn 58 = [34 :: p.1 ++ [34], valBytes p.2] := by
    rw [hshape]
    exact splitOn_pair 58 _ _ hx fun a ha => (valBytes_structural p.2 hv a ha).1
  unfold parsePair
  rw [hsplit]
  simp only [parseQuoted_quote, parseJVal_valBytes p.2 hv]
  rfl

theorem mapM_parse_of_eachOk {α β : Type} (f : α → Except String β) (g : β → α) :
    ∀ l : List β, (∀ b ∈ l, f (g b) = .ok b) → (l.map g).mapM f = .ok l := by
  intro l
  induction l with
  | nil => intro _; rfl
  | cons b rest ih =>
    intro h
    simp only [List.map_cons, List.mapM_cons, h b (by simp)]
    rw [ih fun x hx => h x (by simp [hx])]
    rfl

theorem pairBytes_ne_nil (p : GoStr × JVal) : pairBytes p ≠ [] := by
  simp [pairBytes]

theorem pairBytes_ne_44 (p : GoStr × JVal)
    (hk : p.1.all safeByte = true) (hv : validVal p.2 = true) :
    ∀ a ∈ pairBytes p, a ≠ 44 := by
  intro a ha
  simp only [pairBytes] at ha
  rcases List.mem_cons.mp ha with h | h
  · omega
  · rcases List.mem_append.mp h with h2 | h2
    · rw [List.all_eq_true] at hk
      exact safe_ne a 44 (hk a h2) (by omega)
    · rcases List.mem_cons.mp h2 with h3 | h3
      · omega
      · rcases List.mem_cons.mp h3 with h4 | h4
        · omega
        · exact (valBytes_structural p.2 hv a h4).2

theorem parseMap_cons (rest : List Nat) :
    parseMap (123 :: rest) =
      (if rest.getLast? = some 125 then
        if rest.dropLast = [] then .ok []
        else do
          let pairs ← (rest.dropLast.splitOn 44).mapM parsePair
          .ok (normalizeMap pairs)
      else .error "unmarshal cursor") := rfl

theorem parseMap_emitMap (m : JsonMap) (hc : canonMap m) (hv : validMap m = true) :
    parseMap (emitMap m) = .ok m := by
  unfold emitMap
  rw [List.cons_append, parseMap_cons, List.getLast?_concat, if_pos rfl,
    List.dropLast_concat]
  rcases hm : m with _ | ⟨p, ps⟩
  · rfl
  · rw [← hm]
    have hvall : ∀ q ∈ m, q.1.all safeByte = true ∧ validVal q.2 = true := by
      intro q hq
      rw [validMap, List.all_eq_true] at hv
      have := hv q hq
      exact ⟨by simp_all, by simp_all⟩
    have h44 : ∀ l ∈ m.map pairBytes, 44 ∉ l := by
      intro l hl
      rw [List.mem_map] at hl
      obtain ⟨q, hq, hql⟩ := hl
      rw [← hql]
      intro hmem
      exact (pairBytes_ne_44 q (hvall q hq).1 (hvall q hq).2 44 hmem) rfl
    have hmapnil : m.map pairBytes ≠ [] := by simp [hm]
    have hsplit : ([44].intercalate (m.map pairBytes)).splitOn 44 = m.map pairBytes :=
      List.splitOn_intercalate (m.map pairBytes) 44 h44 hmapnil
    have hne : [44].intercalate (m.map pairBytes) ≠ [] := by
      intro hnil
      rw [hnil] at hsplit
      rw [hm] at hsplit
      simp [List.splitOn_nil] at hsplit
      exact pairBytes_ne_nil p hsplit.1
    rw [if_neg hne, hsplit]
    have hmapm : (m.map pairBytes).mapM parsePair = .ok m :=
      mapM_parse_of_eachOk parsePair pairBytes m fun q hq =>
        parsePair_pairBytes q (hvall q hq).1 (hvall q hq).2
    rw [hmapm]
    show Except.ok (normalizeMap m) = Except.ok m
    rw [normalizeMap_canon m hc]

theorem lookup_isSome_of_mem_keys {m : JsonMap} {k : GoStr}
    (h : k ∈ m.map Prod.fst) : (m.lookup k).isSome = true := by
  induction m with
  | nil => simp at h
  | cons p rest ih =>
    simp only [List.map_cons, List.mem_cons] at h
    by_cases he : k = p.1
    · simp [List.lookup, he]
    · rcases h with h | h
      · exact absurd h he
      · have hne : (k == p.1) = false := by simpa using he
        simpa [List.lookup, hne] using ih h

/-! ### ORDER BY comparator lemmas -/

/-- Flip the sort direction of every ORDER BY column. -/
def flipCols (cols : List (GoStr × Bool)) : List (GoStr × Bool) :=
  cols.map fun cd => (cd.1, !cd.2)

theorem lexLe_flip : ∀ (cols : List (GoStr × Bool)) (a b : Row),
    lexLe (flipCols cols) a b = lexLe cols b a := by
  intro cols
  induction cols with
  | nil => intro a b; rfl
  | cons cd rest ih =>
    intro a b
    obtain ⟨c, desc⟩ := cd
    have hstep : flipCols ((c, desc) :: rest) = (c, !desc) :: flipCols rest := rfl
    rw [hstep]
    by_cases he : rowVal a c = rowVal b c
    · have he' : rowVal b c = rowVal a c := he.symm
      simp only [lexLe, if_pos he, if_pos he']
      exact ih a b
    · have he' : ¬rowVal b c = rowVal a c := fun hx => he hx.symm
      cases desc <;> simp [lexLe, he, he']

theorem lexLe_total : ∀ (cols : List (GoStr × Bool)) (a b : Row),
    lexLe cols a b = true ∨ lexLe cols b a = true := by
  intro cols
  induction cols with
  | nil => intro a b; left; rfl
  | cons cd rest ih =>
    intro a b
    obtain ⟨c, desc⟩ := cd
    by_cases he : rowVal a c = rowVal b c
    · have he' : rowVal b c = rowVal a c := he.symm
      simp only [lexLe, if_pos he, if_pos he']
      exact ih a b
    · have he' : ¬rowVal b c = rowVal a c := fun hx => he hx.symm
      cases desc <;> simp [lexLe, he, he']

theorem lexLe_trans : ∀ (cols : List (GoStr × Bool)) (a b c : Row),
    lexLe cols a b = true → lexLe cols b c = true → lexLe cols a c = true := by
  intro cols
  induction cols with
  | nil => intro a b c _ _; rfl
  | cons cd rest ih =>
    intro a b c hab hbc
    obtain ⟨col, desc⟩ := cd
    by_cases h1 : rowVal a col = rowVal b col
    · by_cases h2 : rowVal b col = rowVal c col
      · have h3 : rowVal a col = rowVal c col := h1.trans h2
        simp only [lexLe, if_pos h1] at hab
        simp only [lexLe, if_pos h2] at hbc
        simp only [lexLe, if_pos h3]
        exact ih a b c hab hbc
      · have h3 : ¬rowVal a col = rowVal c col := h1 ▸ h2
        simp only [lexLe, if_pos h1] at hab
        simp only [lexLe, if_neg h2] at hbc
        simp only [lexLe, if_neg h3]
        rw [← h1] at hbc
        exact hbc
    · by_cases h2 : rowVal b col = rowVal c col
      · have h3 : ¬rowVal a col = rowVal c col := fun hx => h1 (h2 ▸ hx)
        simp only [lexLe, if_neg h1] at hab
        simp only [lexLe, if_neg h3]
        rw [← h2]
        exact hab
      · simp only [lexLe, if_neg h1] at hab
        simp only [lexLe, if_neg h2] at hbc
        have h3 : ¬rowVal a col = rowVal c col := by
          cases desc <;> simp at hab hbc <;> omega
        simp only [lexLe, if_neg h3]
        cases desc <;> simp at hab hbc ⊢ <;> omega

theorem runQuery_sorted (store : List Row) (q : KQuery) :
    (runQuery store q).Pairwise fun a b => lexLe q.orderCols a b = true := by
  haveI : IsTotal Row fun a b => lexLe q.orderCols a b = true :=
    ⟨fun a b => lexLe_total q.orderCols a b⟩
  haveI : IsTrans Row fun a b => lexLe q.orderCols a b = true :=
    ⟨fun a b c => lexLe_trans q.orderCols a b c⟩
  have hs := List.sorted_insertionSort (fun a b => lexLe q.orderCols a b = true)
    (store.filter fun r => q.wheres.all fun t => evalOr r t)
  unfold runQuery
  split
  · exact hs
  · exact List.Pairwise.sublist (List.take_sublist _ _) hs

/-- The spec-side meaning of the boundary predicate: lexicographic tuple
comparison of the row against the keyset, decided by the first field whose
row value differs from the keyset value, with the comparison direction
given by the field (desc flips it, and `rev` flips every direction). -/
def lexStrict (col : GoStr → GoStr) (row : Row) (ks : KeysetI) (rev : Bool) :
    List OrderBy → Bool
  | [] => false
  | ob :: rest =>
    let x := rowVal row (col ob.field)
    let v := (ks.lookup ob.field).getD 0
    let desc := if rev then !ob.desc else ob.desc
    if x = v then lexStrict col row ks rev rest
    else if desc then decide (x < v) else decide (v < x)

theorem createWhereExprGo_eval (col : GoStr → GoStr) (ks : KeysetI) (rev : Bool) :
    ∀ (obs : List OrderBy) (eqs : AndGroup) (ors : OrAnds),
    createWhereExprGo col ks rev obs eqs = .ok ors → ∀ row : Row,
    evalOr row ors = (evalAnd row eqs && lexStrict col row ks rev obs) := by
  intro obs
  induction obs with
  | nil =>
    intro eqs ors h row
    simp only [createWhereExprGo, Except.ok.injEq] at h
    subst h
    simp [evalOr, lexStrict]
  | cons ob rest ih =>
    intro eqs ors h row
    cases hlk : ks.lookup ob.field with
    | none => simp [createWhereExprGo, hlk] at h
    | some v =>
      simp only [createWhereExprGo, hlk] at h
      cases hrec : createWhereExprGo col ks rev rest
          (if rest.isEmpty then eqs
           else eqs ++ [WAtom.eqA (col ob.field) v]) with
      | error e => rw [hrec] at h; simp [Except.map] at h
      | ok ors' =>
        rw [hrec] at h
        simp only [Except.map, Except.ok.injEq] at h
        subst h
        have hIH := ih _ ors' hrec row
        have hor : evalOr row
            ((eqs ++ [if (if rev then !ob.desc else ob.desc) then
                WAtom.ltA (col ob.field) v else WAtom.gtA (col ob.field) v]) :: ors')
            = (evalAnd row (eqs ++ [if (if rev then !ob.desc else ob.desc) then
                WAtom.ltA (col ob.field) v else WAtom.gtA (col ob.field) v])
              || evalOr row ors') := by
          simp only [evalOr, List.any_cons]
        have hand : evalAnd row (eqs ++ [if (if rev then !ob.desc else ob.desc) then
              WAtom.ltA (col ob.field) v else WAtom.gtA (col ob.field) v])
            = (evalAnd row eqs
                && evalAtom row (if (if rev then !ob.desc else ob.desc) then
                    WAtom.ltA (col ob.field) v else WAtom.gtA (col ob.field) v)) := by
          simp only [evalAnd, List.all_append, List.all_cons, List.all_nil, Bool.and_true]
        rw [hor, hand, hIH]
        have hlex : lexStrict col row ks rev (ob :: rest)
            = if rowVal row (col ob.field) = v then lexStrict col row ks rev rest
              else if (if rev then !ob.desc else ob.desc) then
                decide (rowVal row (col ob.field) < v)
              else decide (v < rowVal row (col ob.field)) := by
          simp only [lexStrict, hlk, Option.getD_some]
        rw [hlex]
        by_cases he : rowVal row (col ob.field) = v
        · have hatom : evalAtom row (if (if rev then !ob.desc else ob.desc) then
              WAtom.ltA (col ob.field) v else WAtom.gtA (col ob.field) v) = false := by
            cases hrev : (if rev then !ob.desc else ob.desc)
              <;> simp [evalAtom, he]
          have heq2 : evalAnd row (if rest.isEmpty then eqs
              else eqs ++ [WAtom.eqA (col ob.field) v]) = evalAnd row eqs := by
            cases hre : rest.isEmpty
            · rw [if_neg (show ¬(false = true) by simp)]
              simp [evalAnd, List.all_append, evalAtom, he]
            · rw [if_pos rfl]
          rw [hatom, heq2, if_pos he]
          cases evalAnd row eqs <;> simp
        · have hatom : evalAtom row (if (if rev then !ob.desc else ob.desc) then
              WAtom.ltA (col ob.field) v else WAtom.gtA (col ob.field) v)
              = (if (if rev then !ob.desc else ob.desc) then
                  decide (rowVal row (col ob.field) < v)
                else decide (v < rowVal row (col ob.field))) := by
            cases hrev : (if rev then !ob.desc else ob.desc)
              <;> simp [evalAtom]
          rw [hatom, if_neg he]
          cases hre : rest.isEmpty
          · have heq2 : evalAnd row (eqs ++ [WAtom.eqA (col ob.field) v])
                = (evalAnd row eqs && false) := by
              simp [evalAnd, List.all_append, evalAtom, he]
            rw [if_neg (show ¬(false = true) by simp), heq2]
            cases evalAnd row eqs <;> simp
          · have hrest : rest = [] := List.isEmpty_iff.mp hre
            have hlexnil : lexStrict col row ks rev rest = false := by
              rw [hrest]; rfl
            rw [if_pos rfl, hlexnil]
            cases evalAnd row eqs <;> simp

/-! ### Plumbing lemmas for `Except` do-blocks -/

theorem ebind_ok {α β : Type} (x : α) (f : α → Except String β) :
    (Except.ok x >>= f) = f x := rfl

theorem ebind_err {α β : Type} (e : String) (f : α → Except String β) :
    ((Except.error e : Except String α) >>= f) = Except.error e := rfl

theorem emap_ok {α β : Type} (x : α) (f : α → β) :
    Except.map f (Except.ok x : Except String α) = .ok (f x) := rfl

theorem emap_err {α β : Type} (e : String) (f : α → β) :
    Except.map f (Except.error e : Except String α) = .error e := rfl

theorem scopeKeyset_ok_parts (col : GoStr → GoStr) (after before : Option KeysetI)
    (orderBys : List OrderBy) (limit : Int) (fromLast : Bool) (q : KQuery)
    (h : scopeKeyset col after before orderBys limit fromLast = .ok q) :
    q.orderCols = orderBys.map (fun ob =>
      (col ob.field, if fromLast then !ob.desc else ob.desc))
    ∧ q.limit = limit := by
  unfold scopeKeyset at h
  cases after with
  | none =>
    cases before with
    | none =>
      simp only [pure, Except.pure, ebind_ok] at h
      cases h
      exact ⟨rfl, rfl⟩
    | some ksb =>
      cases hb : createWhereExpr col orderBys ksb true with
      | error e =>
        simp only [pure, Except.pure, hb, emap_err, ebind_ok, ebind_err] at h
        exact absurd h (by simp)
      | ok tb =>
        simp only [pure, Except.pure, hb, emap_ok, ebind_ok] at h
        cases h
        exact ⟨rfl, rfl⟩
  | some ksa =>
    cases ha : createWhereExpr col orderBys ksa false with
    | error e =>
      simp only [pure, Except.pure, ha, emap_err, ebind_ok, ebind_err] at h
      exact absurd h (by simp)
    | ok ta =>
      cases before with
      | none =>
        simp only [pure, Except.pure, ha, emap_ok, ebind_ok] at h
        cases h
        exact ⟨rfl, rfl⟩
      | some ksb =>
        cases hb : createWhereExpr col orderBys ksb true with
        | error e =>
          simp only [pure, Except.pure, ha, hb, emap_ok, emap_err, ebind_ok,
            ebind_err] at h
          exact absurd h (by simp)
        | ok tb =>
          simp only [pure, Except.pure, ha, hb, emap_ok, ebind_ok] at h
          cases h
          exact ⟨rfl, rfl⟩

/-! ### The claims -/

/-- C1: for every multi-field order-by sequence and every keyset containing
a value for each ordered field, the keyset boundary predicate built by
`createWhereExpr` for "strictly after" (`reverse = false`) — and, with
directions flipped (`reverse = true`), "strictly before" — is the
lexicographic tuple comparison: it holds of a row exactly when the first
field whose row value differs from the keyset value compares strictly in
the field's direction, descending fields flipping the comparison.  The
tree it builds is the OR over positions of (equalities before the position
AND the strict inequality at it), embodied by `createWhereExprGo`. -/
theorem createWhereExpr_is_lexicographic (col : GoStr → GoStr)
    (orderBys : List OrderBy) (keyset : KeysetI) (reverse : Bool) (t : OrAnds)
    (h : createWhereExpr col orderBys keyset reverse = .ok t) (row : Row) :
    evalOr row t = lexStrict col row keyset reverse orderBys := by
  have := createWhereExprGo_eval col keyset reverse orderBys [] t h row
  simpa [evalAnd] using this

theorem createWhereExpr_is_lexicographic_witness :
    (createWhereExpr id [⟨gs "age", false⟩, ⟨gs "name", true⟩]
        [(gs "age", 85), (gs "name", 15)] false
      = .ok [[WAtom.gtA (gs "age") 85],
             [WAtom.eqA (gs "age") 85, WAtom.ltA (gs "name") 15]])
    ∧ evalOr [(gs "age", 85), (gs "name", 10)]
        [[WAtom.gtA (gs "age") 85],
         [WAtom.eqA (gs "age") 85, WAtom.ltA (gs "name") 15]]
      = lexStrict id [(gs "age", 85), (gs "name", 10)]
          [(gs "age", 85), (gs "name", 15)] false
          [⟨gs "age", false⟩, ⟨gs "name", true⟩] :=
  ⟨by decide,
   createWhereExpr_is_lexicographic id [⟨gs "age", false⟩, ⟨gs "name", true⟩]
     [(gs "age", 85), (gs "name", 15)] false
     [[WAtom.gtA (gs "age") 85],
      [WAtom.eqA (gs "age") 85, WAtom.ltA (gs "name") 15]]
     (by decide) [(gs "age", 85), (gs "name", 10)]⟩

/-- C2: every keyset-mode fetch with `fromLast` issues the store query with
every order-by direction reversed and then reverses the returned slice in
memory, so the slice the finder delivers is always ascending per the
effective order-bys (pairwise `lexLe` on the effective columns). -/
theorem keyset_fromLast_reverses (col : GoStr → GoStr) (store : List Row)
    (after before : Option KeysetI) (orderBys : List OrderBy) (limit : Int)
    (ns : List Row)
    (h : keysetFinderFind col store after before orderBys limit true = .ok ns) :
    ns.Pairwise (fun a b =>
      lexLe (orderBys.map fun ob => (col ob.field, ob.desc)) a b = true)
    ∧ ((limit = 0 ∧ ns = [])
       ∨ ∃ q, scopeKeyset col after before orderBys limit true = .ok q
            ∧ q.orderCols = flipCols (orderBys.map fun ob => (col ob.field, ob.desc))
            ∧ ns = (runQuery store q).reverse) := by
  unfold keysetFinderFind at h
  by_cases hl : limit = 0
  · rw [if_pos hl] at h
    cases h
    exact ⟨List.Pairwise.nil, Or.inl ⟨hl, rfl⟩⟩
  · rw [if_neg hl] at h
    cases hsc : scopeKeyset col after before orderBys limit true with
    | error e => rw [hsc, ebind_err] at h; exact absurd h (by simp)
    | ok q =>
      rw [hsc, ebind_ok] at h
      have hns : ns = (runQuery store q).reverse := by
        have h2 : (Except.ok ((runQuery store q).reverse) : Except String (List Row))
            = Except.ok ns := by
          simpa using h
        exact (Except.ok.inj h2).symm
      subst hns
      have hparts := scopeKeyset_ok_parts col after before orderBys limit true q hsc
      have hcols : q.orderCols
          = flipCols (orderBys.map fun ob => (col ob.field, ob.desc)) := by
        rw [hparts.1]
        simp [flipCols, List.map_map]
      constructor
      · rw [List.pairwise_reverse]
        have hs := runQuery_sorted store q
        refine hs.imp ?_
        intro a b hab
        rw [hcols, lexLe_flip] at hab
        exact hab
      · right
        refine ⟨q, ?_, ?_, ?_⟩
        · rfl
        · exact hcols
        · rfl

theorem keyset_fromLast_reverses_witness :
    (keysetFinderFind id
        [[(gs "age", 1)], [(gs "age", 3)], [(gs "age", 2)]] none none
        [⟨gs "age", false⟩] 10 true
      = .ok [[(gs "age", 1)], [(gs "age", 2)], [(gs "age", 3)]])
    ∧ (List.Pairwise (fun a b =>
        lexLe ([⟨gs "age", false⟩].map fun ob :
            OrderBy => (id ob.field, ob.desc)) a b = true)
        [[(gs "age", 1)], [(gs "age", 2)], [(gs "age", 3)]]
      ∧ (((10 : Int) = 0 ∧ ([[(gs "age", 1)], [(gs "age", 2)], [(gs "age", 3)]] :
            List Row) = [])
         ∨ ∃ q, scopeKeyset id none none [⟨gs "age", false⟩] 10 true = .ok q
              ∧ q.orderCols
                  = flipCols ([⟨gs "age", false⟩].map fun ob :
                      OrderBy => (id ob.field, ob.desc))
              ∧ [[(gs "age", 1)], [(gs "age", 2)], [(gs "age", 3)]]
                  = (runQuery [[(gs "age", 1)], [(gs "age", 3)], [(gs "age", 2)]]
                      q).reverse)) :=
  ⟨by decide,
   keyset_fromLast_reverses id
     [[(gs "age", 1)], [(gs "age", 3)], [(gs "age", 2)]] none none
     [⟨gs "age", false⟩] 10
     [[(gs "age", 1)], [(gs "age", 2)], [(gs "age", 3)]] (by decide)⟩

theorem epure {α : Type} (x : α) : (pure x : Except String α) = Except.ok x := rfl

theorem parseOffsetCursors_ok_spec (sa sb : Option GoStr) (after before : Option Int)
    (h : parseOffsetCursors sa sb = .ok (after, before)) :
    (∀ a, after = some a → 0 ≤ a) ∧ (∀ b, before = some b → 0 ≤ b)
    ∧ (∀ a b, after = some a → before = some b → a < b)
    ∧ after.isSome = sa.isSome ∧ before.isSome = sb.isSome
    ∧ (∀ c, sa = some c → ∃ a, offsetParserDecode c = .ok a ∧ after = some a)
    ∧ (∀ c, sb = some c → ∃ b, offsetParserDecode c = .ok b ∧ before = some b) := by
  unfold parseOffsetCursors at h
  cases sa with
  | none =>
    cases sb with
    | none =>
      simp only [epure, ebind_ok] at h
      rw [if_neg (by simp), if_neg (by simp), if_neg (by simp)] at h
      injection h with hpair
      injection hpair with ha hb
      subst ha
      subst hb
      refine ⟨by simp, by simp, by simp, rfl, rfl, by simp, by simp⟩
    | some cb =>
      cases hdb : offsetParserDecode cb with
      | error e =>
        simp only [epure, ebind_ok, hdb, emap_err, ebind_err] at h
        exact absurd h (by simp)
      | ok b =>
        simp only [epure, ebind_ok, hdb, emap_ok] at h
        rw [if_neg (by simp)] at h
        by_cases hb0 : b < 0
        · rw [if_pos (decide_eq_true hb0)] at h
          exact absurd h (by simp)
        · rw [if_neg (by simpa using hb0), if_neg (by simp)] at h
          injection h with hpair
          injection hpair with ha hb
          subst ha
          subst hb
          refine ⟨by simp, ?_, by simp, rfl, rfl, by simp, ?_⟩
          · intro b' hb'
            injection hb' with hb'
            omega
          · intro c hc
            injection hc with hc
            subst hc
            exact ⟨b, hdb, rfl⟩
  | some ca =>
    cases hda : offsetParserDecode ca with
    | error e =>
      simp only [hda, emap_err, ebind_err] at h
      exact absurd h (by simp)
    | ok a =>
      cases sb with
      | none =>
        simp only [epure, hda, emap_ok, ebind_ok] at h
        by_cases ha0 : a < 0
        · rw [if_pos (decide_eq_true ha0)] at h
          exact absurd h (by simp)
        · rw [if_neg (by simpa using ha0), if_neg (by simp), if_neg (by simp)] at h
          injection h with hpair
          injection hpair with ha hb
          subst ha
          subst hb
          refine ⟨?_, by simp, by simp, rfl, rfl, ?_, by simp⟩
          · intro a' ha'
            injection ha' with ha'
            omega
          · intro c hc
            injection hc with hc
            subst hc
            exact ⟨a, hda, rfl⟩
      | some cb =>
        cases hdb : offsetParserDecode cb with
        | error e =>
          simp only [hda, emap_ok, ebind_ok, hdb, emap_err, ebind_err] at h
          exact absurd h (by simp)
        | ok b =>
          simp only [hda, emap_ok, ebind_ok, hdb] at h
          by_cases ha0 : a < 0
          · rw [if_pos (decide_eq_true ha0)] at h
            exact absurd h (by simp)
          · rw [if_neg (by simpa using ha0)] at h
            by_cases hb0 : b < 0
            · rw [if_pos (decide_eq_true hb0)] at h
              exact absurd h (by simp)
            · rw [if_neg (by simpa using hb0)] at h
              by_cases hab : b ≤ a
              · rw [if_pos (decide_eq_true hab)] at h
                exact absurd h (by simp)
              · rw [if_neg (by simpa using hab)] at h
                injection h with hpair
                injection hpair with ha hb
                subst ha
                subst hb
                refine ⟨?_, ?_, ?_, rfl, rfl, ?_, ?_⟩
                · intro a' ha'
                  injection ha' with ha'
                  omega
                · intro b' hb'
                  injection hb' with hb'
                  omega
                · intro a' b' ha' hb'
                  injection ha' with ha'
                  injection hb' with hb'
                  omega
                · intro c hc
                  injection hc with hc
                  subst hc
                  exact ⟨a, hda, rfl⟩
                · intro c hc
                  injection hc with hc
                  subst hc
                  exact ⟨b, hdb, rfl⟩

/-- C3: in offset mode the skip handed to the finder is `after + 1` when an
after cursor decoded, else `max 0 (before - limit)` when a before cursor
decoded, else `0`; and when a before cursor decoded the limit handed to the
finder is capped to `max 0 (before - skip)`, so a non-empty fetch never
crosses the before boundary (`skip + limit ≤ before`). -/
theorem offsetLimitSkip_skip (limit0 : Int) (after before : Option Int) :
    (offsetLimitSkip limit0 after before).2
      = (match after, before with
         | some a, _ => if a + 1 < 0 then 0 else a + 1
         | none, some b => if b - limit0 < 0 then 0 else b - limit0
         | none, none => 0) := by
  cases after <;> cases before <;> rfl

theorem offsetLimitSkip_limit (limit0 : Int) (after before : Option Int) :
    (offsetLimitSkip limit0 after before).1
      = (match before with
         | some b =>
           if limit0 > (if b - (offsetLimitSkip limit0 after before).2 < 0 then 0
               else b - (offsetLimitSkip limit0 after before).2)
           then (if b - (offsetLimitSkip limit0 after before).2 < 0 then 0
               else b - (offsetLimitSkip limit0 after before).2)
           else limit0
         | none => limit0) := by
  cases after <;> cases before <;> rfl

theorem offset_skip_and_limit (sa sb : Option GoStr) (limit0 : Int)
    (after before : Option Int)
    (h : parseOffsetCursors sa sb = .ok (after, before)) :
    (offsetLimitSkip limit0 after before).2
      = (match after, before with
         | some a, _ => a + 1
         | none, some b => max 0 (b - limit0)
         | none, none => 0)
    ∧ (∀ b, before = some b →
        (offsetLimitSkip limit0 after before).1
          = min limit0 (max 0 (b - (offsetLimitSkip limit0 after before).2))
        ∧ (0 < (offsetLimitSkip limit0 after before).1 →
            (offsetLimitSkip limit0 after before).2
              + (offsetLimitSkip limit0 after before).1 ≤ b)) := by
  obtain ⟨hA, hB, hAB, _⟩ := parseOffsetCursors_ok_spec sa sb after before h
  have hsk := offsetLimitSkip_skip limit0 after before
  have hlim := offsetLimitSkip_limit limit0 after before
  cases after with
  | some a =>
    have ha : 0 ≤ a := hA a rfl
    cases before with
    | none =>
      refine ⟨?_, fun b hb => absurd hb (by simp)⟩
      have hsk2 : (offsetLimitSkip limit0 (some a) none).2
          = if a + 1 < 0 then 0 else a + 1 := hsk
      show (offsetLimitSkip limit0 (some a) none).2 = a + 1
      rw [hsk2]
      split_ifs <;> omega
    | some b =>
      have hsk2 : (offsetLimitSkip limit0 (some a) (some b)).2
          = if a + 1 < 0 then 0 else a + 1 := hsk
      have hlim2 : (offsetLimitSkip limit0 (some a) (some b)).1
          = (if limit0 > (if b - (offsetLimitSkip limit0 (some a) (some b)).2 < 0
                then 0 else b - (offsetLimitSkip limit0 (some a) (some b)).2)
             then (if b - (offsetLimitSkip limit0 (some a) (some b)).2 < 0
                then 0 else b - (offsetLimitSkip limit0 (some a) (some b)).2)
             else limit0) := hlim
      constructor
      · show (offsetLimitSkip limit0 (some a) (some b)).2 = a + 1
        rw [hsk2]
        split_ifs <;> omega
      · intro b' hb'
        injection hb' with hb'
        subst hb'
        constructor
        · rw [hlim2, hsk2]
          split_ifs <;> omega
        · rw [hlim2, hsk2]
          split_ifs <;> omega
  | none =>
    cases before with
    | none =>
      refine ⟨?_, fun b hb => absurd hb (by simp)⟩
      show (offsetLimitSkip limit0 none none).2 = 0
      exact hsk
    | some b =>
      have hsk2 : (offsetLimitSkip limit0 none (some b)).2
          = if b - limit0 < 0 then 0 else b - limit0 := hsk
      have hlim2 : (offsetLimitSkip limit0 none (some b)).1
          = (if limit0 > (if b - (offsetLimitSkip limit0 none (some b)).2 < 0
                then 0 else b - (offsetLimitSkip limit0 none (some b)).2)
             then (if b - (offsetLimitSkip limit0 none (some b)).2 < 0
                then 0 else b - (offsetLimitSkip limit0 none (some b)).2)
             else limit0) := hlim
      constructor
      · show (offsetLimitSkip limit0 none (some b)).2 = max 0 (b - limit0)
        rw [hsk2]
        split_ifs <;> omega
      · intro b' hb'
        injection hb' with hb'
        subst hb'
        constructor
        · rw [hlim2, hsk2]
          split_ifs <;> omega
        · rw [hlim2, hsk2]
          split_ifs <;> omega

theorem offset_skip_and_limit_witness :
    (parseOffsetCursors (some (offsetParserEncode 1)) (some (offsetParserEncode 9))
        = .ok (some 1, some 9))
    ∧ ((offsetLimitSkip 5 (some 1) (some 9)).2
        = (match (some 1 : Option Int), (some 9 : Option Int) with
           | some a, _ => a + 1
           | none, some b => max 0 (b - 5)
           | none, none => 0)
      ∧ (∀ b, (some 9 : Option Int) = some b →
          (offsetLimitSkip 5 (some 1) (some 9)).1
            = min 5 (max 0 (b - (offsetLimitSkip 5 (some 1) (some 9)).2))
          ∧ (0 < (offsetLimitSkip 5 (some 1) (some 9)).1 →
              (offsetLimitSkip 5 (some 1) (some 9)).2
                + (offsetLimitSkip 5 (some 1) (some 9)).1 ≤ b))) :=
  ⟨by decide,
   offset_skip_and_limit (some (offsetParserEncode 1)) (some (offsetParserEncode 9))
     5 (some 1) (some 9) (by decide)⟩

/-- C9: the offset cursor decode stage fails on every malformed input —
input that is not base64, or whose base64 payload `Atoi` rejects — and a
cursor that decodes to a negative offset is rejected by the cursor-parsing
stage (`parseOffsetCursors`, errors "after < 0" / "before < 0"). -/
theorem offset_decode_rejects :
    (∀ s : GoStr, decB64 s = none →
        offsetParserDecode s = .error "decode offset cursor")
    ∧ (∀ s bs e, decB64 s = some bs → goAtoi bs = .error e →
        offsetParserDecode s = .error e)
    ∧ (∀ s n, offsetParserDecode s = .ok n → n < 0 →
        parseOffsetCursors (some s) none = .error "after < 0"
        ∧ parseOffsetCursors none (some s) = .error "before < 0") := by
  refine ⟨?_, ?_, ?_⟩
  · intro s hs
    unfold offsetParserDecode
    rw [hs]
  · intro s bs e hs hatoi
    unfold offsetParserDecode
    rw [hs]
    exact hatoi
  · intro s n hdec hneg
    constructor
    · unfold parseOffsetCursors
      simp only [epure, hdec, emap_ok, ebind_ok]
      rw [if_pos (decide_eq_true hneg)]
    · unfold parseOffsetCursors
      simp only [epure, hdec, emap_ok, ebind_ok]
      rw [if_neg (by simp), if_pos (decide_eq_true hneg)]

theorem offset_decode_rejects_witness :
    (decB64 (gs "!") = none
      ∧ offsetParserDecode (gs "!") = .error "decode offset cursor")
    ∧ (decB64 (encB64 (gs "ab")) = some (gs "ab")
      ∧ goAtoi (gs "ab") = .error "parse offset cursor"
      ∧ offsetParserDecode (encB64 (gs "ab")) = .error "parse offset cursor")
    ∧ (offsetParserDecode (offsetParserEncode (-1)) = .ok (-1)
      ∧ parseOffsetCursors (some (offsetParserEncode (-1))) none
          = .error "after < 0"
      ∧ parseOffsetCursors none (some (offsetParserEncode (-1)))
          = .error "before < 0") :=
  ⟨⟨by decide, offset_decode_rejects.1 (gs "!") (by decide)⟩,
   ⟨by decide, by decide,
    offset_decode_rejects.2.1 (encB64 (gs "ab")) (gs "ab") "parse offset cursor"
      (by decide) (by decide)⟩,
   ⟨by decide,
    (offset_decode_rejects.2.2 (offsetParserEncode (-1)) (-1)
      (by decide) (by decide)).1,
    (offset_decode_rejects.2.2 (offsetParserEncode (-1)) (-1)
      (by decide) (by decide)).2⟩⟩

theorem canonMap_keys_nodup (m : JsonMap) (hc : canonMap m) :
    (m.map Prod.fst).Nodup := by
  unfold canonMap at hc
  have h2 : (m.map Prod.fst).Pairwise fun a b => cmpBytes a b = .lt := by
    rw [List.pairwise_map]
    exact hc
  refine h2.imp ?_
  intro a b hab
  intro he
  rw [he] at hab
  rw [(cmpBytes_eq_iff b b).2 rfl] at hab
  exact absurd hab (by simp)

theorem contains_of_mem {keys : List GoStr} {k : GoStr} (h : k ∈ keys) :
    keys.contains k = true := by
  simpa using h

/-- C6: decoding an encoded cursor returns the original value, both for
every non-negative integer offset and for every keyset in the valid
domain (canonical, safe-byte map whose key set is exactly the key-field
list). -/
theorem decode_encode_roundtrip :
    (∀ n : Int, 0 ≤ n → offsetParserDecode (offsetParserEncode n) = .ok n)
    ∧ (∀ (x : JsonMap) (keys : List GoStr), canonMap x → validMap x = true →
        (x.map Prod.fst).Perm keys →
        ∃ c, EncodeKeysetCursor x keys = .ok c
          ∧ DecodeKeysetCursor c keys = .ok x) := by
  constructor
  · exact offsetParserDecode_encode
  · intro x keys hc hv hperm
    have hpick : pickByKeys x keys = x := by
      unfold pickByKeys
      rw [List.filter_eq_self]
      intro p hp
      exact contains_of_mem (hperm.mem_iff.mp (List.mem_map_of_mem Prod.fst hp))
    refine ⟨emitMap x, ?_, ?_⟩
    · unfold EncodeKeysetCursor
      rw [hpick]
    · unfold DecodeKeysetCursor
      rw [parseMap_emitMap x hc hv, ebind_ok]
      have hlen : x.length = keys.length := by
        have h1 := hperm.length_eq
        simpa using h1
      rw [if_neg (by simp [hlen])]
      rw [if_neg ?_]
      intro hany
      rw [List.any_eq_true] at hany
      obtain ⟨k, hk, hnone⟩ := hany
      have hmem : k ∈ x.map Prod.fst := hperm.mem_iff.mpr hk
      have hsome := lookup_isSome_of_mem_keys hmem
      rw [Option.isNone_iff_eq_none] at hnone
      rw [hnone] at hsome
      simp at hsome

theorem decode_encode_roundtrip_witness :
    (0 ≤ (42 : Int) ∧ offsetParserDecode (offsetParserEncode 42) = .ok 42)
    ∧ (canonMap [(gs "a", JVal.jint 1), (gs "b", JVal.jstr (gs "x"))]
      ∧ validMap [(gs "a", JVal.jint 1), (gs "b", JVal.jstr (gs "x"))] = true
      ∧ (([(gs "a", JVal.jint 1), (gs "b", JVal.jstr (gs "x"))] : JsonMap).map
          Prod.fst).Perm [gs "b", gs "a"]
      ∧ ∃ c, EncodeKeysetCursor
            [(gs "a", JVal.jint 1), (gs "b", JVal.jstr (gs "x"))]
            [gs "b", gs "a"] = .ok c
          ∧ DecodeKeysetCursor c [gs "b", gs "a"]
              = .ok [(gs "a", JVal.jint 1), (gs "b", JVal.jstr (gs "x"))]) :=
  ⟨⟨by decide, decode_encode_roundtrip.1 42 (by decide)⟩,
   ⟨by decide, by decide, by decide,
    decode_encode_roundtrip.2 [(gs "a", JVal.jint 1), (gs "b", JVal.jstr (gs "x"))]
      [gs "b", gs "a"] (by decide) (by decide) (by decide)⟩⟩

/-- C7: `DecodeKeysetCursor` fails whenever the decoded member count
differs from the number of expected key fields (error "cursor length !=
keys length") or any expected key is missing from the decoded mapping
(error "key not found in cursor"); otherwise it returns the decoded
keyset.  A cursor the JSON layer cannot parse fails with the parse
error. -/
theorem decode_keyset_checks :
    (∀ (cursor : GoStr) (keys : List GoStr) (m : JsonMap),
        parseMap cursor = .ok m →
        ((m.length = keys.length ∧ ∀ k ∈ keys, (m.lookup k).isSome = true) →
            DecodeKeysetCursor cursor keys = .ok m)
        ∧ (m.length ≠ keys.length →
            DecodeKeysetCursor cursor keys = .error "cursor length != keys length")
        ∧ ((∃ k ∈ keys, (m.lookup k).isNone = true) → m.length = keys.length →
            DecodeKeysetCursor cursor keys = .error "key not found in cursor"))
    ∧ (∀ (cursor : GoStr) (keys : List GoStr) (e : String),
        parseMap cursor = .error e →
        DecodeKeysetCursor cursor keys = .error e) := by
  constructor
  · intro cursor keys m hp
    refine ⟨?_, ?_, ?_⟩
    · intro ⟨hlen, hall⟩
      unfold DecodeKeysetCursor
      rw [hp, ebind_ok, if_neg (by simp [hlen]), if_neg ?_]
      intro hany
      rw [List.any_eq_true] at hany
      obtain ⟨k, hk, hnone⟩ := hany
      have := hall k hk
      rw [Option.isNone_iff_eq_none] at hnone
      rw [hnone] at this
      simp at this
    · intro hlen
      unfold DecodeKeysetCursor
      rw [hp, ebind_ok, if_pos hlen]
    · intro hmiss hlen
      unfold DecodeKeysetCursor
      rw [hp, ebind_ok, if_neg (by simp [hlen]), if_pos ?_]
      rw [List.any_eq_true]
      exact hmiss
  · intro cursor keys e hp
    unfold DecodeKeysetCursor
    rw [hp, ebind_err]

theorem decode_keyset_checks_witness :
    (parseMap (emitMap [(gs "a", JVal.jint 1)]) = .ok [(gs "a", JVal.jint 1)]
      ∧ DecodeKeysetCursor (emitMap [(gs "a", JVal.jint 1)]) [gs "a"]
          = .ok [(gs "a", JVal.jint 1)]
      ∧ DecodeKeysetCursor (emitMap [(gs "a", JVal.jint 1)]) [gs "a", gs "b"]
          = .error "cursor length != keys length"
      ∧ DecodeKeysetCursor (emitMap [(gs "a", JVal.jint 1)]) [gs "b"]
          = .error "key not found in cursor")
    ∧ (parseMap (gs "oops") = .error "unmarshal cursor"
      ∧ DecodeKeysetCursor (gs "oops") [gs "a"] = .error "unmarshal cursor") :=
  ⟨⟨by decide,
    ((decode_keyset_checks.1 (emitMap [(gs "a", JVal.jint 1)]) [gs "a"]
        [(gs "a", JVal.jint 1)] (by decide)).1 (by decide)),
    ((decode_keyset_checks.1 (emitMap [(gs "a", JVal.jint 1)]) [gs "a", gs "b"]
        [(gs "a", JVal.jint 1)] (by decide)).2.1 (by decide)),
    ((decode_keyset_checks.1 (emitMap [(gs "a", JVal.jint 1)]) [gs "b"]
        [(gs "a", JVal.jint 1)] (by decide)).2.2 (by decide) (by decide))⟩,
   ⟨by decide,
    decode_keyset_checks.2 (gs "oops") [gs "a"] "unmarshal cursor" (by decide)⟩⟩

/-- C8 counterexample: `EncodeKeysetCursor` does not fail when a named key
field is absent from the record's serialised map.  Here the record's map
has only "a" while the key fields are ["a", "b"]: "b" is absent, yet the
encode succeeds, silently emitting a cursor that lacks "b". -/
theorem encode_missing_key_no_error :
    (([(gs "a", JVal.jint 1)] : JsonMap).lookup (gs "b") = none
      ∧ gs "b" ∈ [gs "a", gs "b"])
    ∧ EncodeKeysetCursor [(gs "a", JVal.jint 1)] [gs "a", gs "b"]
        = .ok (emitMap [(gs "a", JVal.jint 1)]) := by
  refine ⟨⟨by decide, by decide⟩, by decide⟩

theorem lookup_filter_none (p : GoStr × JVal → Bool) :
    ∀ (m : JsonMap) (k : GoStr), m.lookup k = none →
      (m.filter p).lookup k = none := by
  intro m
  induction m with
  | nil => intro k _; rfl
  | cons q rest ih =>
    intro k hk
    obtain ⟨a, b⟩ := q
    by_cases he : k = a
    · exfalso
      subst he
      simp [List.lookup] at hk
    · have hne : (k == a) = false := by simpa using he
      have hk2 : rest.lookup k = none := by simpa [List.lookup, hne] using hk
      rw [List.filter_cons]
      by_cases hp : p (a, b) = true
      · rw [if_pos hp]
        simpa [List.lookup, hne] using ih k hk2
      · rw [if_neg hp]
        exact ih k hk2

/-- C8 (amended): `EncodeKeysetCursor` never fails because of an absent
key field — `lo.PickByKeys` silently drops keys the serialised record
lacks — so the produced cursor simply omits them; the mismatch only
surfaces when the cursor is later decoded, where the member-count check
rejects it. -/
theorem encode_skips_missing_keys (m : JsonMap) (keys : List GoStr) :
    EncodeKeysetCursor m keys = .ok (emitMap (pickByKeys m keys))
    ∧ (∀ k, m.lookup k = none → (pickByKeys m keys).lookup k = none)
    ∧ (∀ k, k ∈ keys → m.lookup k = none → canonMap m → validMap m = true →
        DecodeKeysetCursor (emitMap (pickByKeys m keys)) keys
          = .error "cursor length != keys length") := by
  refine ⟨rfl, ?_, ?_⟩
  · intro k hk
    unfold pickByKeys
    exact lookup_filter_none _ m k hk
  · intro k hk hnone hc hv
    have hcanonp : canonMap (pickByKeys m keys) :=
      List.Pairwise.sublist (List.filter_sublist m) hc
    have hvalidp : validMap (pickByKeys m keys) = true := by
      rw [validMap, List.all_eq_true] at hv ⊢
      intro p hp
      exact hv p (List.mem_of_mem_filter hp)
    have hkeysub : ∀ a ∈ (pickByKeys m keys).map Prod.fst, a ∈ keys.erase k := by
      intro a ha
      rw [List.mem_map] at ha
      obtain ⟨p, hp, hpa⟩ := ha
      have hmemkeys : a ∈ keys := by
        have := List.of_mem_filter hp
        rw [hpa] at this
        simpa using this
      have hne : a ≠ k := by
        intro he
        subst he
        have hsome := lookup_isSome_of_mem_keys
          (List.mem_map_of_mem Prod.fst (List.mem_of_mem_filter hp))
        rw [hpa, hnone] at hsome
        simp at hsome
      exact (List.mem_erase_of_ne hne).mpr hmemkeys
    have hnodupp : ((pickByKeys m keys).map Prod.fst).Nodup :=
      canonMap_keys_nodup _ hcanonp
    have hsubperm : List.Subperm ((pickByKeys m keys).map Prod.fst)
        (keys.erase k) :=
      List.Nodup.subperm hnodupp hkeysub
    have hlenlt : (pickByKeys m keys).length < keys.length := by
      have h1 := hsubperm.length_le
      rw [List.length_map] at h1
      have h2 := List.length_erase_of_mem hk
      have h3 : 0 < keys.length := List.length_pos_of_mem hk
      omega
    unfold DecodeKeysetCursor
    rw [parseMap_emitMap _ hcanonp hvalidp, ebind_ok, if_pos (by omega)]

theorem encode_skips_missing_keys_witness :
    (gs "b" ∈ [gs "a", gs "b"]
      ∧ ([(gs "a", JVal.jint 1)] : JsonMap).lookup (gs "b") = none
      ∧ canonMap [(gs "a", JVal.jint 1)]
      ∧ validMap [(gs "a", JVal.jint 1)] = true)
    ∧ (EncodeKeysetCursor [(gs "a", JVal.jint 1)] [gs "a", gs "b"]
        = .ok (emitMap (pickByKeys [(gs "a", JVal.jint 1)] [gs "a", gs "b"]))
      ∧ (pickByKeys [(gs "a", JVal.jint 1)] [gs "a", gs "b"]).lookup (gs "b")
          = none
      ∧ DecodeKeysetCursor
          (emitMap (pickByKeys [(gs "a", JVal.jint 1)] [gs "a", gs "b"]))
          [gs "a", gs "b"] = .error "cursor length != keys length") :=
  ⟨⟨by decide, by decide, by decide, by decide⟩,
   (encode_skips_missing_keys [(gs "a", JVal.jint 1)] [gs "a", gs "b"]).1,
   (encode_skips_missing_keys [(gs "a", JVal.jint 1)] [gs "a", gs "b"]).2.1
     (gs "b") (by decide),
   (encode_skips_missing_keys [(gs "a", JVal.jint 1)] [gs "a", gs "b"]).2.2
     (gs "b") (by decide) (by decide) (by decide) (by decide)⟩

/-- C5 counterexample: two textually different cursor strings that decode
to the identical keyset value (the same JSON object with members in a
different order).  `decodeKeysetCursors` accepts the pair — no
"after == before" rejection happens — because the code compares the raw
cursor strings before decoding. -/
theorem identical_decoded_cursors_not_rejected :
    (DecodeKeysetCursor (emitMap [(gs "a", JVal.jint 1), (gs "b", JVal.jint 2)])
        [gs "a", gs "b"] = .ok [(gs "a", JVal.jint 1), (gs "b", JVal.jint 2)]
      ∧ DecodeKeysetCursor (emitMap [(gs "b", JVal.jint 2), (gs "a", JVal.jint 1)])
          [gs "a", gs "b"] = .ok [(gs "a", JVal.jint 1), (gs "b", JVal.jint 2)]
      ∧ emitMap [(gs "a", JVal.jint 1), (gs "b", JVal.jint 2)]
          ≠ emitMap [(gs "b", JVal.jint 2), (gs "a", JVal.jint 1)])
    ∧ decodeKeysetCursors
        (some (emitMap [(gs "a", JVal.jint 1), (gs "b", JVal.jint 2)]))
        (some (emitMap [(gs "b", JVal.jint 2), (gs "a", JVal.jint 1)]))
        [gs "a", gs "b"]
      = .ok (some [(gs "a", JVal.jint 1), (gs "b", JVal.jint 2)],
             some [(gs "a", JVal.jint 1), (gs "b", JVal.jint 2)]) := by
  refine ⟨⟨by decide, by decide, by decide⟩, by decide⟩

/-- C5 (amended): the keyset adapter rejects with "after == before", before
any fetch and for every finder, exactly when the After and Before cursor
*strings* are identical (the comparison precedes decoding); the offset
mode rejects equal (and reversed) decoded offsets through its broader
"after >= before" check. -/
theorem identical_cursor_rejection :
    (∀ (T : Type) (toMap : T → JsonMap) (finder : KeysetFinder T)
        (counter : CounterCap) (req : ACRequest) (s : GoStr),
        req.after = some s → req.before = some s →
        NewKeysetAdapter toMap finder counter req = .error "after == before")
    ∧ (∀ (sa sb : GoStr) (a b : Int),
        offsetParserDecode sa = .ok a → offsetParserDecode sb = .ok b →
        0 ≤ a → 0 ≤ b → b ≤ a →
        parseOffsetCursors (some sa) (some sb) = .error "after >= before") := by
  constructor
  · intro T toMap finder counter req s ha hb
    have hdec : decodeKeysetCursors req.after req.before
        (req.orderBys.map (·.field)) = .error "after == before" := by
      rw [ha, hb]
      unfold decodeKeysetCursors
      rw [if_pos (show ((match some s, some s with
        | some a, some b => a == b
        | _, _ => false) : Bool) = true from by simp)]
    unfold NewKeysetAdapter
    simp only [hdec, ebind_err]
  · intro sa sb a b hda hdb ha0 hb0 hab
    unfold parseOffsetCursors
    simp only [hda, hdb, emap_ok, ebind_ok]
    rw [if_neg (by simpa using ha0), if_neg (by simpa using hb0),
      if_pos (decide_eq_true hab)]

theorem identical_cursor_rejection_witness :
    ((⟨some (emitMap [(gs "a", JVal.jint 7)]),
        some (emitMap [(gs "a", JVal.jint 7)]), 5,
        [⟨gs "a", false⟩], false⟩ : ACRequest).after
        = some (emitMap [(gs "a", JVal.jint 7)])
      ∧ NewKeysetAdapter (fun _ : Unit => ([] : JsonMap))
          (fun _ _ _ _ _ => .ok ([] : List Unit)) none
          ⟨some (emitMap [(gs "a", JVal.jint 7)]),
           some (emitMap [(gs "a", JVal.jint 7)]), 5,
           [⟨gs "a", false⟩], false⟩ = .error "after == before")
    ∧ (offsetParserDecode (offsetParserEncode 3) = .ok 3
      ∧ parseOffsetCursors (some (offsetParserEncode 3))
          (some (offsetParserEncode 3)) = .error "after >= before") :=
  ⟨⟨rfl,
    identical_cursor_rejection.1 Unit (fun _ => [])
      (fun _ _ _ _ _ => .ok []) none
      ⟨some (emitMap [(gs "a", JVal.jint 7)]),
       some (emitMap [(gs "a", JVal.jint 7)]), 5,
       [⟨gs "a", false⟩], false⟩
      (emitMap [(gs "a", JVal.jint 7)]) rfl rfl⟩,
   ⟨by decide,
    identical_cursor_rejection.2 (offsetParserEncode 3) (offsetParserEncode 3)
      3 3 (by decide) (by decide) (by decide) (by decide) (by decide)⟩⟩

theorem ok_resp_fields {E : Type} {edges : List E} {tc : Int} {fA fB : Bool}
    {resp : ACResponse E}
    (h : (Except.ok ⟨edges, tc, fA, fB⟩ : Except String (ACResponse E)) = .ok resp) :
    resp.hasAfterOrPrevious = fA ∧ resp.hasBeforeOrNext = fB
    ∧ resp.totalCount = tc ∧ resp.edges = edges := by
  injection h with h
  rw [← h]
  exact ⟨rfl, rfl, rfl, rfl⟩

theorem decodeKeysetCursors_ok_isSome (a? b? : Option GoStr) (keys : List GoStr)
    (x y : Option JsonMap)
    (h : decodeKeysetCursors a? b? keys = .ok (x, y)) :
    x.isSome = a?.isSome ∧ y.isSome = b?.isSome := by
  unfold decodeKeysetCursors at h
  split at h
  · exact absurd h (by simp)
  · cases a? with
    | none =>
      cases b? with
      | none =>
        simp only [epure, ebind_ok] at h
        injection h with hp
        injection hp with h1 h2
        subst h1
        subst h2
        exact ⟨rfl, rfl⟩
      | some cb =>
        cases hdb : DecodeKeysetCursor cb keys with
        | error e =>
          simp only [epure, ebind_ok, hdb, emap_err, ebind_err] at h
          exact absurd h (by simp)
        | ok mb =>
          simp only [epure, ebind_ok, hdb, emap_ok] at h
          injection h with hp
          injection hp with h1 h2
          subst h1
          subst h2
          exact ⟨rfl, rfl⟩
    | some ca =>
      cases hda : DecodeKeysetCursor ca keys with
      | error e =>
        simp only [hda, emap_err, ebind_err] at h
        exact absurd h (by simp)
      | ok ma =>
        cases b? with
        | none =>
          simp only [epure, hda, emap_ok, ebind_ok] at h
          injection h with hp
          injection hp with h1 h2
          subst h1
          subst h2
          exact ⟨rfl, rfl⟩
        | some cb =>
          cases hdb : DecodeKeysetCursor cb keys with
          | error e =>
            simp only [hda, emap_ok, ebind_ok, hdb, emap_err, ebind_err] at h
            exact absurd h (by simp)
          | ok mb =>
            simp only [hda, emap_ok, ebind_ok, hdb, emap_ok] at h
            injection h with hp
            injection hp with h1 h2
            subst h1
            subst h2
            exact ⟨rfl, rfl⟩

/-- C4: without a Counter capability the boundary flags are exactly cursor
presence — the keyset adapter reports `after/before cursor supplied`
(indeed it does so whatever the counter), and so does the offset adapter
without a counter; with a Counter, the offset adapter instead refines the
flags by comparing the decoded offset against the total count. -/
theorem boundary_flags_cursor_presence :
    (∀ (T : Type) (toMap : T → JsonMap) (finder : KeysetFinder T)
        (counter : CounterCap) (req : ACRequest) (resp : ACResponse (LazyEdge T)),
        NewKeysetAdapter toMap finder counter req = .ok resp →
        resp.hasAfterOrPrevious = req.after.isSome
        ∧ resp.hasBeforeOrNext = req.before.isSome)
    ∧ (∀ (T : Type) (finder : OffsetFinder T) (req : ACRequest)
        (resp : ACResponse (Edge T)),
        NewOffsetAdapter finder none req = .ok resp →
        resp.hasAfterOrPrevious = req.after.isSome
        ∧ resp.hasBeforeOrNext = req.before.isSome)
    ∧ (∀ (T : Type) (finder : OffsetFinder T) (cnt : Int) (req : ACRequest)
        (resp : ACResponse (Edge T)) (after before : Option Int),
        parseOffsetCursors req.after req.before = .ok (after, before) →
        NewOffsetAdapter finder (some (.ok cnt)) req = .ok resp →
        resp.hasAfterOrPrevious
          = (match after with | some a => decide (a < cnt) | none => false)
        ∧ resp.hasBeforeOrNext
          = (match before with | some b => decide (b < cnt) | none => false)) := by
  refine ⟨?_, ?_, ?_⟩
  · intro T toMap finder counter req resp h
    unfold NewKeysetAdapter at h
    cases hdk : decodeKeysetCursors req.after req.before
        (req.orderBys.map (·.field)) with
    | error e =>
      simp only [hdk, ebind_err] at h
      exact absurd h (by simp)
    | ok ab =>
      obtain ⟨x, y⟩ := ab
      obtain ⟨hx, hy⟩ := decodeKeysetCursors_ok_isSome req.after req.before _ x y hdk
      simp only [hdk, ebind_ok] at h
      rw [← hx, ← hy]
      cases counter with
      | none =>
        simp only [epure, ebind_ok] at h
        split at h
        · try simp only [epure, ebind_ok] at h
          have hf := ok_resp_fields h
          exact ⟨hf.1, hf.2.1⟩
        · cases hfind : finder x y req.orderBys req.limit req.fromLast with
          | error e =>
            simp only [hfind, ebind_err] at h
            exact absurd h (by simp)
          | ok nodes =>
            simp only [hfind, ebind_ok] at h
            try simp only [epure, ebind_ok] at h
            have hf := ok_resp_fields h
            exact ⟨hf.1, hf.2.1⟩
      | some c =>
        cases c with
        | error e =>
          try simp only [ebind_err] at h
          exact absurd h (by simp)
        | ok cnt =>
          simp only [ebind_ok] at h
          split at h
          · try simp only [epure, ebind_ok] at h
            have hf := ok_resp_fields h
            exact ⟨hf.1, hf.2.1⟩
          · cases hfind : finder x y req.orderBys req.limit req.fromLast with
            | error e =>
              simp only [hfind, ebind_err] at h
              exact absurd h (by simp)
            | ok nodes =>
              simp only [hfind, ebind_ok] at h
              try simp only [epure, ebind_ok] at h
              have hf := ok_resp_fields h
              exact ⟨hf.1, hf.2.1⟩
  · intro T finder req resp h
    unfold NewOffsetAdapter at h
    cases hp : parseOffsetCursors req.after req.before with
    | error e =>
      simp only [hp, ebind_err] at h
      exact absurd h (by simp)
    | ok ab =>
      obtain ⟨x, y⟩ := ab
      obtain ⟨_, _, _, hx, hy, _⟩ := parseOffsetCursors_ok_spec req.after req.before x y hp
      simp only [hp, ebind_ok, epure] at h
      rw [← hx, ← hy]
      split at h
      · try simp only [epure, ebind_ok] at h
        have hf := ok_resp_fields h
        refine ⟨?_, ?_⟩
        · rw [hf.1]
          cases x <;> rfl
        · rw [hf.2.1]
          cases y <;> rfl
      · cases hfind : finder (offsetLimitSkip req.limit x y).2
            (offsetLimitSkip req.limit x y).1 with
        | error e =>
          simp only [hfind, ebind_err] at h
          exact absurd h (by simp)
        | ok nodes =>
          simp only [hfind, ebind_ok] at h
          try simp only [epure, ebind_ok] at h
          have hf := ok_resp_fields h
          refine ⟨?_, ?_⟩
          · rw [hf.1]
            cases x <;> rfl
          · rw [hf.2.1]
            cases y <;> rfl
  · intro T finder cnt req resp after before hp h
    unfold NewOffsetAdapter at h
    simp only [hp, ebind_ok, ebind_err] at h
    split at h
    · try simp only [epure, ebind_ok] at h
      have hf := ok_resp_fields h
      refine ⟨?_, ?_⟩
      · rw [hf.1]
        cases after <;> rfl
      · rw [hf.2.1]
        cases before <;> rfl
    · cases hfind : finder (offsetLimitSkip req.limit after before).2
          (offsetLimitSkip req.limit after before).1 with
      | error e =>
        simp only [hfind, ebind_err] at h
        exact absurd h (by simp)
      | ok nodes =>
        simp only [hfind, ebind_ok] at h
        try simp only [epure, ebind_ok] at h
        have hf := ok_resp_fields h
        refine ⟨?_, ?_⟩
        · rw [hf.1]
          cases after <;> rfl
        · rw [hf.2.1]
          cases before <;> rfl

theorem boundary_flags_cursor_presence_witness :
    (NewKeysetAdapter (fun _ : Unit => ([] : JsonMap))
        (fun _ _ _ _ _ => .ok ([] : List Unit)) none
        ⟨some (emitMap [(gs "a", JVal.jint 7)]), none, 5, [⟨gs "a", false⟩], false⟩
        = .ok ⟨[], 0, true, false⟩
      ∧ (⟨[], 0, true, false⟩ : ACResponse (LazyEdge Unit)).hasAfterOrPrevious = true
      ∧ (⟨[], 0, true, false⟩ : ACResponse (LazyEdge Unit)).hasBeforeOrNext = false)
    ∧ (NewOffsetAdapter (fun _ _ => .ok ([] : List Unit)) none
        ⟨some (offsetParserEncode 3), none, 5, [], false⟩
        = .ok ⟨[], 0, true, false⟩
      ∧ (⟨[], 0, true, false⟩ : ACResponse (Edge Unit)).hasAfterOrPrevious = true
      ∧ (⟨[], 0, true, false⟩ : ACResponse (Edge Unit)).hasBeforeOrNext = false)
    ∧ (parseOffsetCursors (some (offsetParserEncode 3)) none = .ok (some 3, none)
      ∧ NewOffsetAdapter (fun _ _ => .ok ([] : List Unit)) (some (.ok 10))
          ⟨some (offsetParserEncode 3), none, 5, [], false⟩
          = .ok ⟨[], 10, true, false⟩
      ∧ (⟨[], 10, true, false⟩ : ACResponse (Edge Unit)).hasAfterOrPrevious = true
      ∧ (⟨[], 10, true, false⟩ : ACResponse (Edge Unit)).hasBeforeOrNext = false) := by
  have h1 : NewKeysetAdapter (fun _ : Unit => ([] : JsonMap))
      (fun _ _ _ _ _ => .ok ([] : List Unit)) none
      ⟨some (emitMap [(gs "a", JVal.jint 7)]), none, 5, [⟨gs "a", false⟩], false⟩
      = .ok ⟨[], 0, true, false⟩ := by decide
  have h2 : NewOffsetAdapter (fun _ _ => .ok ([] : List Unit)) none
      ⟨some (offsetParserEncode 3), none, 5, [], false⟩
      = .ok ⟨[], 0, true, false⟩ := by decide
  have hp : parseOffsetCursors (some (offsetParserEncode 3)) none
      = .ok (some 3, none) := by decide
  have h3 : NewOffsetAdapter (fun _ _ => .ok ([] : List Unit)) (some (.ok 10))
      ⟨some (offsetParserEncode 3), none, 5, [], false⟩
      = .ok ⟨[], 10, true, false⟩ := by decide
  have c1 := boundary_flags_cursor_presence.1 Unit (fun _ => [])
      (fun _ _ _ _ _ => .ok []) none
      ⟨some (emitMap [(gs "a", JVal.jint 7)]), none, 5, [⟨gs "a", false⟩], false⟩
      ⟨[], 0, true, false⟩ h1
  have c2 := boundary_flags_cursor_presence.2.1 Unit (fun _ _ => .ok [])
      ⟨some (offsetParserEncode 3), none, 5, [], false⟩ ⟨[], 0, true, false⟩ h2
  have c3 := boundary_flags_cursor_presence.2.2 Unit (fun _ _ => .ok []) 10
      ⟨some (offsetParserEncode 3), none, 5, [], false⟩ ⟨[], 10, true, false⟩
      (some 3) none hp h3
  exact ⟨⟨h1, c1.1, c1.2⟩, ⟨h2, c2.1, c2.2⟩, ⟨hp, h3, c3.1, c3.2⟩⟩

theorem offsetLimitSkip_limit_of_zero (after before : Option Int) :
    (offsetLimitSkip 0 after before).1 = 0 := by
  have h := offsetLimitSkip_limit 0 after before
  cases before with
  | none => exact h
  | some b =>
    rw [h]
    split
    · split_ifs <;> omega
    · rfl

/-- C10: with a zero request limit neither adapter invokes the finder's
fetch (the adapter's result does not depend on the finder at all), the
returned edge list is empty, and the total count still comes from the
Counter when one is present. -/
theorem zero_limit_no_fetch :
    (∀ (T : Type) (toMap : T → JsonMap) (f g : KeysetFinder T)
        (counter : CounterCap) (req : ACRequest), req.limit = 0 →
        NewKeysetAdapter toMap f counter req = NewKeysetAdapter toMap g counter req
        ∧ ∀ resp, NewKeysetAdapter toMap f counter req = .ok resp →
            resp.edges = []
            ∧ ∀ cnt, counter = some (.ok cnt) → resp.totalCount = cnt)
    ∧ (∀ (T : Type) (f g : OffsetFinder T) (counter : CounterCap)
        (req : ACRequest), req.limit = 0 →
        NewOffsetAdapter f counter req = NewOffsetAdapter g counter req
        ∧ ∀ resp, NewOffsetAdapter f counter req = .ok resp →
            resp.edges = []
            ∧ ∀ cnt, counter = some (.ok cnt) → resp.totalCount = cnt) := by
  constructor
  · intro T toMap f g counter req hlim
    cases hdk : decodeKeysetCursors req.after req.before
        (req.orderBys.map (·.field)) with
    | error e =>
      constructor
      · unfold NewKeysetAdapter
        simp only [hdk, ebind_err]
      · intro resp h
        unfold NewKeysetAdapter at h
        simp only [hdk, ebind_err] at h
        exact absurd h (by simp)
    | ok ab =>
      obtain ⟨x, y⟩ := ab
      cases counter with
      | none =>
        constructor
        · unfold NewKeysetAdapter
          simp only [hdk, ebind_ok, epure]
          split
          next hcond => rfl
          next hcond => exact absurd (Or.inl (le_of_eq hlim)) hcond
        · intro resp h
          unfold NewKeysetAdapter at h
          simp only [hdk, ebind_ok, epure] at h
          split at h
          next hcond =>
            try simp only [ebind_ok, epure] at h
            injection h with h
            refine ⟨by rw [← h], ?_⟩
            intro cnt hc
            exact absurd hc (by simp)
          next hcond => exact absurd (Or.inl (le_of_eq hlim)) hcond
      | some c =>
        cases c with
        | error e =>
          constructor
          · unfold NewKeysetAdapter
            simp only [hdk, ebind_ok, ebind_err]
          · intro resp h
            unfold NewKeysetAdapter at h
            simp only [hdk, ebind_ok, ebind_err] at h
            exact absurd h (by simp)
        | ok cnt0 =>
          constructor
          · unfold NewKeysetAdapter
            simp only [hdk, ebind_ok, epure]
            split
            next hcond => rfl
            next hcond => exact absurd (Or.inl (le_of_eq hlim)) hcond
          · intro resp h
            unfold NewKeysetAdapter at h
            simp only [hdk, ebind_ok, epure] at h
            split at h
            next hcond =>
              try simp only [ebind_ok, epure] at h
              injection h with h
              refine ⟨by rw [← h], ?_⟩
              intro cnt hc
              injection hc with hc
              injection hc with hc
              rw [← h]
              exact hc
            next hcond => exact absurd (Or.inl (le_of_eq hlim)) hcond
  · intro T f g counter req hlim
    cases hp : parseOffsetCursors req.after req.before with
    | error e =>
      constructor
      · unfold NewOffsetAdapter
        simp only [hp, ebind_err]
      · intro resp h
        unfold NewOffsetAdapter at h
        simp only [hp, ebind_err] at h
        exact absurd h (by simp)
    | ok ab =>
      obtain ⟨x, y⟩ := ab
      have hlz : (offsetLimitSkip req.limit x y).1 ≤ 0 := by
        rw [hlim]
        exact le_of_eq (offsetLimitSkip_limit_of_zero x y)
      cases counter with
      | none =>
        constructor
        · unfold NewOffsetAdapter
          simp only [hp, ebind_ok, epure]
          split
          next hcond => rfl
          next hcond => exact absurd (Or.inl hlz) hcond
        · intro resp h
          unfold NewOffsetAdapter at h
          simp only [hp, ebind_ok, epure] at h
          split at h
          next hcond =>
            try simp only [ebind_ok, epure] at h
            injection h with h
            refine ⟨by rw [← h], ?_⟩
            intro cnt hc
            exact absurd hc (by simp)
          next hcond => exact absurd (Or.inl hlz) hcond
      | some c =>
        cases c with
        | error e =>
          constructor
          · unfold NewOffsetAdapter
            simp only [hp, ebind_ok, ebind_err]
          · intro resp h
            unfold NewOffsetAdapter at h
            simp only [hp, ebind_ok, ebind_err] at h
            exact absurd h (by simp)
        | ok cnt0 =>
          constructor
          · unfold NewOffsetAdapter
            simp only [hp, ebind_ok, epure]
            split
            next hcond => rfl
            next hcond => exact absurd (Or.inl hlz) hcond
          · intro resp h
            unfold NewOffsetAdapter at h
            simp only [hp, ebind_ok, epure] at h
            split at h
            next hcond =>
              try simp only [ebind_ok, epure] at h
              injection h with h
              refine ⟨by rw [← h], ?_⟩
              intro cnt hc
              injection hc with hc
              injection hc with hc
              rw [← h]
              exact hc
            next hcond => exact absurd (Or.inl hlz) hcond

theorem zero_limit_no_fetch_witness :
    ((⟨none, none, 0, [], false⟩ : ACRequest).limit = 0
      ∧ NewKeysetAdapter (fun _ : Unit => ([] : JsonMap))
          (fun _ _ _ _ _ => .ok ([] : List Unit)) (some (.ok 10))
          ⟨none, none, 0, [], false⟩
        = NewKeysetAdapter (fun _ : Unit => ([] : JsonMap))
          (fun _ _ _ _ _ => .error "boom") (some (.ok 10))
          ⟨none, none, 0, [], false⟩
      ∧ NewKeysetAdapter (fun _ : Unit => ([] : JsonMap))
          (fun _ _ _ _ _ => .ok ([] : List Unit)) (some (.ok 10))
          ⟨none, none, 0, [], false⟩ = .ok ⟨[], 10, false, false⟩
      ∧ (⟨[], 10, false, false⟩ : ACResponse (LazyEdge Unit)).edges = []
      ∧ (⟨[], 10, false, false⟩ : ACResponse (LazyEdge Unit)).totalCount = 10)
    ∧ ((⟨none, none, 0, [], false⟩ : ACRequest).limit = 0
      ∧ NewOffsetAdapter (fun _ _ => .ok ([] : List Unit)) (some (.ok 10))
          ⟨none, none, 0, [], false⟩
        = NewOffsetAdapter (fun _ _ => .error "boom") (some (.ok 10))
          ⟨none, none, 0, [], false⟩
      ∧ NewOffsetAdapter (fun _ _ => .ok ([] : List Unit)) (some (.ok 10))
          ⟨none, none, 0, [], false⟩ = .ok ⟨[], 10, false, false⟩
      ∧ (⟨[], 10, false, false⟩ : ACResponse (Edge Unit)).edges = []
      ∧ (⟨[], 10, false, false⟩ : ACResponse (Edge Unit)).totalCount = 10) := by
  have hk : NewKeysetAdapter (fun _ : Unit => ([] : JsonMap))
      (fun _ _ _ _ _ => .ok ([] : List Unit)) (some (.ok 10))
      ⟨none, none, 0, [], false⟩ = .ok ⟨[], 10, false, false⟩ := by decide
  have ho : NewOffsetAdapter (fun _ _ => .ok ([] : List Unit)) (some (.ok 10))
      ⟨none, none, 0, [], false⟩ = .ok ⟨[], 10, false, false⟩ := by decide
  have ck := zero_limit_no_fetch.1 Unit (fun _ => [])
      (fun _ _ _ _ _ => .ok []) (fun _ _ _ _ _ => .error "boom")
      (some (.ok 10)) ⟨none, none, 0, [], false⟩ rfl
  have co := zero_limit_no_fetch.2 Unit (fun _ _ => .ok [])
      (fun _ _ => .error "boom") (some (.ok 10)) ⟨none, none, 0, [], false⟩ rfl
  exact ⟨⟨rfl, ck.1, hk, (ck.2 _ hk).1, (ck.2 _ hk).2 10 rfl⟩,
    ⟨rfl, co.1, ho, (co.2 _ ho).1, (co.2 _ ho).2 10 rfl⟩⟩

end Gorelay
